import Mathlib

set_option maxRecDepth 100000

/-!
Verification of the archguardian duplicate-detection engine and analysis
pipeline, shallowly embedded from the TypeScript source.

Embedding conventions:
* AST nodes (`SgNode` of `@ast-grep/napi`) are modelled as finite rose
  trees carrying `kind()`, `text()`, and the 0-based start/end lines of
  `range()`; `children()` is the child list.
* JavaScript strings are modelled by Lean `String`; all strings occurring
  in this development stay inside the Basic Multilingual Plane, where
  JavaScript's UTF-16 code units, `charCodeAt`, lexicographic `<` and
  `slice` agree with Lean's `Char` code points.
* JavaScript 32-bit integer arithmetic (`| 0`, `<< 5`) is modelled on
  `Int` with explicit reduction modulo `2^32` into the signed range.
  The source renders the final djb2 value with `toString(36)`; that
  rendering is injective on 32-bit integers and hash values are only
  ever compared for equality, so the numeric value itself is kept.
* JavaScript floating-point numbers (similarity scores, thresholds) are
  modelled by exact rationals `ℚ`.
* `Map`/`Set` objects are modelled by association lists / lists with the
  same insertion-order iteration semantics.
* Wall-clock durations (`performance.now()`, `timed`) are modelled as 0;
  no claim in this development is about elapsed time.  Per-analyzer
  promises raced against `withTimeout` are modelled by their settled
  outcome: `Except.ok` with a findings list for a fulfilled promise,
  `Except.error` with a description for an analyzer that threw or
  timed out.
-/

/-- AST node: kind, source text, 0-based start line, 0-based end line,
children (mirrors the `SgNode` interface used by the source). -/
inductive Node where
  | mk : String → String → Nat → Nat → List Node → Node

/-- Node kind, as `node.kind()`. -/
def Node.kind : Node → String
  | .mk k _ _ _ _ => k

/-- Node source text, as `node.text()`. -/
def Node.text : Node → String
  | .mk _ t _ _ _ => t

/-- 0-based start line, as `node.range().start.line`. -/
def Node.startLine0 : Node → Nat
  | .mk _ _ s _ _ => s

/-- 0-based end line, as `node.range().end.line`. -/
def Node.endLine0 : Node → Nat
  | .mk _ _ _ e _ => e

/-- Child list, as `node.children()`. -/
def Node.children : Node → List Node
  | .mk _ _ _ _ cs => cs

/-- Minimum number of lines a block must span (`MIN_BLOCK_LINES`). -/
def MIN_BLOCK_LINES : Nat := 5

/-- The block-worthy node kinds (`BLOCK_NODE_TYPES`). -/
def BLOCK_NODE_TYPES : List String :=
  ["function_declaration", "method_definition", "arrow_function",
   "if_statement", "for_statement", "for_in_statement", "while_statement",
   "switch_statement", "try_statement", "class_declaration"]

/-- Identifier-like node kinds (`IDENTIFIER_NODE_TYPES`). -/
def IDENTIFIER_NODE_TYPES : List String :=
  ["identifier", "property_identifier", "shorthand_property_identifier",
   "shorthand_property_identifier_pattern", "type_identifier"]

/-- Literal-like node kinds (`LITERAL_NODE_TYPES`). -/
def LITERAL_NODE_TYPES : List String :=
  ["string", "string_fragment", "template_string", "number", "true",
   "false", "null", "undefined", "regex"]

mutual
/-- Pre-order node list of a subtree: the sequence of nodes visited by
`walk(node, cb)` of `ast-utils` (callback on the node, then on each child
subtree in order). -/
def preorder : Node → List Node
  | .mk k t s e cs => .mk k t s e cs :: preorderList cs
  termination_by structural n => n
/-- Pre-order visit of a list of sibling subtrees, in order. -/
def preorderList : List Node → List Node
  | [] => []
  | c :: cs => preorder c ++ preorderList cs
  termination_by structural l => l
end

/-- The `findNodes` helper of `ast-utils`: all nodes of the tree whose kind
belongs to `types`, in pre-order walk order. -/
def findNodes (root : Node) (types : List String) : List Node :=
  (preorder root).filter (fun n => n.kind ∈ types)

/-- JavaScript `parts.join(' ')`: the strings joined by single spaces. -/
def joinSpace : List String → String
  | [] => ""
  | [s] => s
  | s :: rest => s ++ " " ++ joinSpace rest

mutual
/-- The `normalizeNode` method of `DuplicateDetector`: identifiers become
`$ID`, literals become `$LIT`, any other childless node keeps its text,
and any other node becomes `(kind child₁ … childₙ)` over its normalized
children (the source joins `childParts` with a single space). -/
def normalizeNode : Node → String
  | .mk k t _ _ cs =>
    if k ∈ IDENTIFIER_NODE_TYPES then "$ID"
    else if k ∈ LITERAL_NODE_TYPES then "$LIT"
    else if cs.isEmpty then t
    else "(" ++ k ++ " " ++ joinSpace (normalizeChildren cs) ++ ")"
  termination_by structural n => n
/-- Normalized forms of a child list, in order (the `childParts` array). -/
def normalizeChildren : List Node → List String
  | [] => []
  | c :: cs => normalizeNode c :: normalizeChildren cs
  termination_by structural l => l
end

/-- Reduce an integer into the signed 32-bit range, as JavaScript `| 0`. -/
def toInt32 (x : Int) : Int := (x + 2 ^ 31) % 2 ^ 32 - 2 ^ 31

/-- The djb2 step of `simpleHash`: `hash = ((hash << 5) + hash + c) | 0`.
`hash << 5` coerces to int32 and shifts, which is `toInt32 (h * 32)`; the
outer additions are exact in doubles and then truncated by `| 0`. -/
def djb2Step (h : Int) (c : Char) : Int :=
  toInt32 (toInt32 (h * 32) + h + (c.toNat : Int))

/-- The `simpleHash` method: djb2 with seed 5381 over the code units of
the input.  (The source renders the value with `toString(36)`, which is
injective on int32, so the numeric value is kept.) -/
def simpleHash (input : String) : Int :=
  input.data.foldl djb2Step 5381

/-- The `hashNode` method: djb2 hash of the normalized subtree. -/
def hashNode (node : Node) : Int :=
  simpleHash (normalizeNode node)

/-- Classification of one visited node by `tokenizeNode`: `$ID` for
identifier kinds, `$LIT` for literal kinds, the text for any other leaf,
the bare kind for any other internal node. -/
def tokenClass (n : Node) : String :=
  if n.kind ∈ IDENTIFIER_NODE_TYPES then "$ID"
  else if n.kind ∈ LITERAL_NODE_TYPES then "$LIT"
  else if n.children.isEmpty then n.text
  else n.kind

/-- The `tokenizeNode` method: `walk` visits the subtree in pre-order and
pushes one token per visited node. -/
def tokenizeNode (node : Node) : List String :=
  (preorder node).map tokenClass

/-- The frequency (bag) count of one token, as `toBag(tokens).get(t) ?? 0`. -/
def toBagCount (tokens : List String) (t : String) : Nat :=
  tokens.count t

/-- The distinct keys iterated by `jaccardSimilarity`: the set union of the
two bags' key sets, i.e. the distinct tokens of the two sequences. -/
def allKeys (a b : List String) : List String :=
  (a ++ b).dedup

/-- The accumulated `intersection` of `jaccardSimilarity`:
sum over all distinct tokens of `min(countA, countB)`. -/
def interCount (a b : List String) : Nat :=
  ((allKeys a b).map (fun k => min (toBagCount a k) (toBagCount b k))).sum

/-- The accumulated `union` of `jaccardSimilarity`:
sum over all distinct tokens of `max(countA, countB)`. -/
def unionCount (a b : List String) : Nat :=
  ((allKeys a b).map (fun k => max (toBagCount a k) (toBagCount b k))).sum

/-- The `jaccardSimilarity` method.  Both sequences empty gives 1, exactly
one empty gives 0, otherwise `intersection / union` (0 when the union is
0).  The quotient of the two accumulated integers is formed with `mkRat`. -/
def jaccardSimilarity (a b : List String) : ℚ :=
  if a.length = 0 ∧ b.length = 0 then 1
  else if a.length = 0 ∨ b.length = 0 then 0
  else if unionCount a b = 0 then 0
  else mkRat (interCount a b) (unionCount a b)

/-- Lexicographic comparison of UTF-16 code-unit sequences: the JavaScript
string `<` operator (for BMP strings, code units are code points). -/
def jsLtChars : List Char → List Char → Bool
  | [], [] => false
  | [], _ :: _ => true
  | _ :: _, [] => false
  | a :: as, b :: bs =>
    if a.toNat < b.toNat then true
    else if b.toNat < a.toNat then false
    else jsLtChars as bs

/-- JavaScript `s < t` on strings. -/
def jsLt (s t : String) : Bool :=
  jsLtChars s.data t.data

/-- JavaScript `s.slice(0, n)`: the first `n` code units. -/
def jsSlice0 (s : String) (n : Nat) : String :=
  String.mk (s.data.take n)

/-- The `CodeBlock` record: structural hash, ordered token sequence,
file path, 1-based inclusive start/end lines, original snippet, node kind. -/
structure CodeBlock where
  hash : Int
  tokens : List String
  filePath : String
  startLine : Nat
  endLine : Nat
  snippet : String
  nodeType : String
deriving DecidableEq, Inhabited

/-- One line of a diff hunk (`LineChange`): 1-based line number, content,
and change type (`added` / `removed` / `context`). -/
structure LineChange where
  lineNumber : Nat
  content : String
  changeType : String
deriving DecidableEq

/-- The fields of `FileInfo` consumed by the embedded core: the path and
the added/removed line lists of the diff.  (Language, status, hunks and
raw content are never read by the duplicate engine or the pipeline.) -/
structure FileInfo where
  path : String
  addedLines : List LineChange
  removedLines : List LineChange
deriving DecidableEq

/-- The fields of `ParsedFile` consumed by the embedded core: the path and
the parsed tree root. -/
structure ParsedFile where
  path : String
  tree : Node

/-- The `duplicates` analyzer configuration: enabled flag and similarity
threshold.  The threshold is optional because `analyze` reads it with
`?? 0.85`. -/
structure DuplicatesConfig where
  enabled : Bool
  similarity : Option ℚ

/-- The enabled flags of `config.analyzers` consumed by
`isAnalyzerEnabled`, plus the full duplicates configuration. -/
structure AnalyzersConfig where
  securityEnabled : Bool
  aiSmellsEnabled : Bool
  conventionsEnabled : Bool
  duplicates : DuplicatesConfig
  architectureEnabled : Bool

/-- The fields of `ArchGuardConfig` consumed by the embedded core. -/
structure ArchGuardConfig where
  analyzers : AnalyzersConfig

/-- The `AnalysisContext`: diff file info, parsed files, configuration. -/
structure AnalysisContext where
  files : List FileInfo
  parsedFiles : List ParsedFile
  config : ArchGuardConfig

/-- The `Severity` enumeration. -/
inductive Severity where
  | error
  | warning
  | info
deriving DecidableEq

/-- The `Finding` record.  Optional fields that `createFinding` leaves
unset are `none`. -/
structure Finding where
  ruleId : String
  analyzer : String
  severity : Severity
  message : String
  file : String
  line : Nat
  column : Option Nat
  endLine : Option Nat
  endColumn : Option Nat
  codeSnippet : Option String
  suggestion : Option String
deriving DecidableEq

/-- The `getChangedLines` helper of `BaseAnalyzer`: the added line numbers
of the first `context.files` entry matching the path, or empty if none
matches.  (The source wraps them in a `Set`; membership is what is
consumed, so the list is kept.) -/
def getChangedLines (context : AnalysisContext) (filePath : String) : List Nat :=
  match context.files.find? (fun f => f.path == filePath) with
  | none => []
  | some file => file.addedLines.map (fun l => l.lineNumber)

/-- The `overlapsChangedLines` method: true when some line of the
inclusive range `[startLine, endLine]` is a changed line. -/
def overlapsChangedLines (startLine endLine : Nat) (changedLines : List Nat) : Bool :=
  (List.range' startLine (endLine + 1 - startLine)).any
    (fun line => changedLines.contains line)

/-- The `extractBlocks` method: every block-worthy node of the file's
tree, skipping nodes spanning fewer than `MIN_BLOCK_LINES` lines and
nodes with no changed line in their span; survivors carry their hash,
token sequence, 1-based lines, snippet and kind. -/
def extractBlocks (file : ParsedFile) (changedLines : List Nat) : List CodeBlock :=
  (findNodes file.tree BLOCK_NODE_TYPES).filterMap (fun node =>
    let startLine := node.startLine0 + 1
    let endLine := node.endLine0 + 1
    let lineCount := endLine - startLine + 1
    if lineCount < MIN_BLOCK_LINES then none
    else if ¬ overlapsChangedLines startLine endLine changedLines then none
    else some ⟨hashNode node, tokenizeNode node, file.path, startLine, endLine,
               node.text, node.kind⟩)

/-- The `file:startLine` key of one block, as built inside `pairKey`. -/
def blockKeyStr (b : CodeBlock) : String :=
  b.filePath ++ ":" ++ toString b.startLine

/-- The `pairKey` method: the two `file:startLine` keys joined by `|`,
lexicographically smaller one first. -/
def pairKey (a b : CodeBlock) : String :=
  let ka := blockKeyStr a
  let kb := blockKeyStr b
  if jsLt ka kb then ka ++ "|" ++ kb else kb ++ "|" ++ ka

/-- One insertion into the structural-hash `Map` of `analyze` step 2:
append to the existing bucket of the block's hash, or append a fresh
singleton bucket (JavaScript `Map` iterates in insertion order). -/
def insertBlock (m : List (Int × List CodeBlock)) (b : CodeBlock) :
    List (Int × List CodeBlock) :=
  if m.any (fun e => e.1 == b.hash) then
    m.map (fun e => if e.1 == b.hash then (e.1, e.2 ++ [b]) else e)
  else m ++ [(b.hash, [b])]

/-- The structural-hash `Map` of `analyze` step 2, built over all blocks. -/
def buildHashMap (blocks : List CodeBlock) : List (Int × List CodeBlock) :=
  blocks.foldl insertBlock []

/-- The ordered pairs visited by a nested `for i; for j > i` loop over a
list: every (i, j) index pair with i < j, in loop order. -/
def pairsOrdered {α : Type} : List α → List (α × α)
  | [] => []
  | x :: xs => xs.map (fun y => (x, y)) ++ pairsOrdered xs

/-- One iteration of the structural-clone reporting loop: skip the pair if
its key was already reported, otherwise record the key and the pair. -/
def structStep (acc : List String × List (CodeBlock × CodeBlock))
    (p : CodeBlock × CodeBlock) : List String × List (CodeBlock × CodeBlock) :=
  if pairKey p.1 p.2 ∈ acc.1 then acc
  else (acc.1 ++ [pairKey p.1 p.2], acc.2 ++ [p])

/-- The structural-clone phase of `analyze`: for every bucket with at
least two members, visit its ordered pairs, deduplicating by pair key.
Returns the final `reportedStructural` key set and the reported pairs in
emission order. -/
def structuralPass (buckets : List (Int × List CodeBlock)) :
    List String × List (CodeBlock × CodeBlock) :=
  buckets.foldl (fun acc e =>
    if e.2.length < 2 then acc
    else (pairsOrdered e.2).foldl structStep acc) ([], [])

/-- One iteration of the similar-block loop: skip pairs already reported
as structural clones or as similar, skip a pair of blocks at the same
file and start line, and otherwise report the pair when the Jaccard
similarity of the token sequences reaches the threshold. -/
def similarStep (similarity : ℚ) (reportedStructural : List String)
    (acc : List String × List (CodeBlock × CodeBlock))
    (p : CodeBlock × CodeBlock) : List String × List (CodeBlock × CodeBlock) :=
  let k := pairKey p.1 p.2
  if k ∈ reportedStructural then acc
  else if k ∈ acc.1 then acc
  else if p.1.filePath == p.2.filePath && p.1.startLine == p.2.startLine then acc
  else if similarity ≤ jaccardSimilarity p.1.tokens p.2.tokens then
    (acc.1 ++ [k], acc.2 ++ [p])
  else acc

/-- The near-duplicate phase of `analyze`: the ordered pairs of the whole
block list, filtered and deduplicated by `similarStep`, in emission
order. -/
def similarPass (allBlocks : List CodeBlock) (reportedStructural : List String)
    (similarity : ℚ) : List (CodeBlock × CodeBlock) :=
  ((pairsOrdered allBlocks).foldl (similarStep similarity reportedStructural)
    ([], [])).2

/-- JavaScript `x.toFixed(0)` for a nonnegative rational: the nearest
integer, half rounded up (the ECMAScript tie rule picks the larger
candidate).  Floating-point double rounding is not modelled. -/
def jsToFixed0 (x : ℚ) : String :=
  toString (Rat.floor (x + mkRat 1 2)).toNat

/-- The structural-clone finding pushed by `analyze`, via `createFinding`
with rule `duplicate/structural-clone`, the first block's location, and
warning severity; `column`/`endColumn` stay unset. -/
def structuralCloneFinding (a b : CodeBlock) : Finding :=
  ⟨"duplicate/structural-clone", "duplicates", Severity.warning,
   "Structural duplicate detected: this " ++ a.nodeType ++ " (lines " ++
     toString a.startLine ++ "-" ++ toString a.endLine ++
     ") is structurally identical to " ++ b.filePath ++ ":" ++
     toString b.startLine ++ "-" ++ toString b.endLine,
   a.filePath, a.startLine, none, some a.endLine, none,
   some (jsSlice0 a.snippet 200),
   some "Extract the duplicated logic into a shared function or module"⟩

/-- The similar-block finding pushed by `analyze`, via `createFinding`
with rule `duplicate/similar-block` and the computed similarity
percentage in the message. -/
def similarBlockFinding (a b : CodeBlock) : Finding :=
  ⟨"duplicate/similar-block", "duplicates", Severity.warning,
   "Similar code block detected (" ++
     jsToFixed0 (jaccardSimilarity a.tokens b.tokens * 100) ++
     "% similarity): this " ++ a.nodeType ++ " (lines " ++
     toString a.startLine ++ "-" ++ toString a.endLine ++ ") is similar to " ++
     b.filePath ++ ":" ++ toString b.startLine ++ "-" ++ toString b.endLine,
   a.filePath, a.startLine, none, some a.endLine, none,
   some (jsSlice0 a.snippet 200),
   some "Consider refactoring to reduce duplication"⟩

/-- The similarity threshold read by `analyze`:
`context.config.analyzers.duplicates.similarity ?? 0.85`. -/
def similarityOf (context : AnalysisContext) : ℚ :=
  context.config.analyzers.duplicates.similarity.getD (mkRat 85 100)

/-- Step 1 of `analyze`: all blocks of every parsed file, in file order,
each extracted against its own changed-line set. -/
def allBlocksOf (context : AnalysisContext) : List CodeBlock :=
  context.parsedFiles.foldr
    (fun file rest => extractBlocks file (getChangedLines context file.path) ++ rest) []

/-- The `DuplicateDetector.analyze` method: extract blocks, group by
structural hash, report each structural-clone pair once, then report
not-yet-reported similar pairs; findings are pushed in that order. -/
def DuplicateDetector.analyze (context : AnalysisContext) : List Finding :=
  let similarity := similarityOf context
  let allBlocks := allBlocksOf context
  let hashMap := buildHashMap allBlocks
  let sp := structuralPass hashMap
  (sp.2.map (fun p => structuralCloneFinding p.1 p.2)) ++
    ((similarPass allBlocks sp.1 similarity).map
      (fun p => similarBlockFinding p.1 p.2))

/-- The per-analyzer timeout constant `ANALYZER_TIMEOUT_MS` of the
pipeline module. -/
def ANALYZER_TIMEOUT_MS : Nat := 5000

/-- An analyzer as seen by the pipeline: a name and its settled outcome
on a context.  `Except.ok` is a fulfilled `analyzer.analyze(context)`
raced against `withTimeout`; `Except.error` carries the string of the
rejection reason when the analyzer threw or its timeout fired first. -/
structure Analyzer where
  name : String
  outcome : AnalysisContext → Except String (List Finding)

/-- The `AnalyzerResult` record; the `duration` of the `timed` wrapper is
modelled as 0. -/
structure AnalyzerResult where
  analyzer : String
  findings : List Finding
  duration : Nat
  error : Option String
deriving DecidableEq

/-- The `AnalysisSummary` record; wall-clock `duration` is modelled as 0. -/
structure AnalysisSummary where
  totalFiles : Nat
  totalFindings : Nat
  errors : Nat
  warnings : Nat
  infos : Nat
  analyzerResults : List AnalyzerResult
  duration : Nat
deriving DecidableEq

/-- The `isAnalyzerEnabled` switch: each known analyzer name consults its
enabled flag; unknown names default to true. -/
def isAnalyzerEnabled (name : String) (context : AnalysisContext) : Bool :=
  if name == "security" then context.config.analyzers.securityEnabled
  else if name == "ai-smells" then context.config.analyzers.aiSmellsEnabled
  else if name == "conventions" then context.config.analyzers.conventionsEnabled
  else if name == "duplicates" then context.config.analyzers.duplicates.enabled
  else if name == "architecture" then context.config.analyzers.architectureEnabled
  else true

/-- The identity key of `deduplicateFindings`: `ruleId:file:line`. -/
def findingKey (f : Finding) : String :=
  f.ruleId ++ ":" ++ f.file ++ ":" ++ toString f.line

/-- The stateful filter of `deduplicateFindings`, with the `seen` key set
made explicit: keep a finding exactly when its key was not seen before. -/
def dedupeGo (seen : List String) : List Finding → List Finding
  | [] => []
  | f :: fs =>
    if findingKey f ∈ seen then dedupeGo seen fs
    else f :: dedupeGo (findingKey f :: seen) fs

/-- The `deduplicateFindings` helper of the pipeline module. -/
def deduplicateFindings (findings : List Finding) : List Finding :=
  dedupeGo [] findings

/-- The settled result of one analyzer task, as mapped over
`Promise.allSettled` in `runPipeline`: a fulfilled task keeps its
findings, a rejected one is isolated into an error result with zero
findings. -/
def settleAnalyzer (context : AnalysisContext) (a : Analyzer) : AnalyzerResult :=
  match a.outcome context with
  | Except.ok findings => ⟨a.name, findings, 0, none⟩
  | Except.error reason => ⟨a.name, [], 0, some reason⟩

/-- The `runPipeline` function: filter enabled analyzers, settle each
task, flatten and deduplicate all findings, count severities over the
deduplicated list, and assemble the summary. -/
def runPipeline (context : AnalysisContext) (analyzers : List Analyzer) :
    AnalysisSummary :=
  let enabledAnalyzers := analyzers.filter (fun a => isAnalyzerEnabled a.name context)
  let analyzerResults := enabledAnalyzers.map (settleAnalyzer context)
  let allFindings := deduplicateFindings
    (analyzerResults.foldr (fun r rest => r.findings ++ rest) [])
  ⟨context.files.length,
   allFindings.length,
   (allFindings.filter (fun f => f.severity == Severity.error)).length,
   (allFindings.filter (fun f => f.severity == Severity.warning)).length,
   (allFindings.filter (fun f => f.severity == Severity.info)).length,
   analyzerResults,
   0⟩

/-! Specification-side definitions, written from the wording of the spec
for comparison with the embedded source functions. -/

/-- Spec-side multiset intersection size: sum over all distinct tokens of
`min(countA, countB)` (spec §4.3, Jaccard). -/
def specInter (a b : List String) : Nat :=
  Finset.sum (a.toFinset ∪ b.toFinset) (fun t => min (a.count t) (b.count t))

/-- Spec-side multiset union size: sum over all distinct tokens of
`max(countA, countB)` (spec §4.3, Jaccard). -/
def specUnion (a b : List String) : Nat :=
  Finset.sum (a.toFinset ∪ b.toFinset) (fun t => max (a.count t) (b.count t))

/-- Spec-side Jaccard: both empty gives 1, exactly one empty gives 0,
otherwise intersection over union as a ratio. -/
def specJaccard (a b : List String) : ℚ :=
  if a = [] ∧ b = [] then 1
  else if a = [] ∨ b = [] then 0
  else (specInter a b : ℚ) / (specUnion a b : ℚ)

mutual
/-- Spec-side structural signature (spec §4.2 table): `$ID` or `$LIT` for
identifier/literal kinds, verbatim text for any other leaf, and
`(kind child…)` for any other internal node, children left to right. -/
def specNormalize : Node → String
  | .mk k t _ _ cs =>
    if k ∈ IDENTIFIER_NODE_TYPES then "$ID"
    else if k ∈ LITERAL_NODE_TYPES then "$LIT"
    else match cs with
      | [] => t
      | c :: rest => "(" ++ k ++ specNormChildren (c :: rest) ++ ")"
  termination_by structural n => n
/-- Spec-side child rendering: a space before each normalized child. -/
def specNormChildren : List Node → String
  | [] => ""
  | c :: cs => " " ++ specNormalize c ++ specNormChildren cs
  termination_by structural l => l
end

mutual
/-- Spec-side token sequence (spec §4.2): a pre-order walk emitting one
token per visited node under the same classification. -/
def specTokens : Node → List String
  | .mk k t s e cs => tokenClass (.mk k t s e cs) :: specTokensList cs
  termination_by structural n => n
/-- Spec-side token sequences of sibling subtrees, concatenated. -/
def specTokensList : List Node → List String
  | [] => []
  | c :: cs => specTokens c ++ specTokensList cs
  termination_by structural l => l
end

/-- Spec-side deduplication (spec §4.4): keep the first occurrence of
each identity key, dropping every later finding with the same key. -/
def specDedup : List Finding → List Finding
  | [] => []
  | f :: fs =>
    f :: specDedup (fs.filter (fun g => !(findingKey g == findingKey f)))
termination_by l => l.length
decreasing_by
  exact Nat.lt_succ_of_le (List.length_filter_le _ _)

/-- Concatenation over all buckets of their ordered member pairs: the
pairs the structural-clone loop would emit with no pair-key skip. -/
def bucketPairs (buckets : List (Int × List CodeBlock)) :
    List (CodeBlock × CodeBlock) :=
  (buckets.map (fun e => pairsOrdered e.2)).flatten

/-- Two block pairs are the same unordered pair. -/
def sameUnordered (p q : CodeBlock × CodeBlock) : Prop :=
  (p.1 = q.1 ∧ p.2 = q.2) ∨ (p.1 = q.2 ∧ p.2 = q.1)

/-! Concrete inputs used by witnesses and counterexamples. -/

/-- A childless node. -/
def leafN (k t : String) (s e : Nat) : Node := .mk k t s e []

/-- A ten-line `function_declaration` node with one keyword leaf carrying
`leafText`. -/
def fnNode (leafText : String) : Node :=
  .mk "function_declaration" "function f() {}" 0 9 [leafN "kw" leafText 0 9]

/-- A ten-line file tree whose single block is `fnNode leafText`. -/
def fnTree (leafText : String) : Node :=
  .mk "program" "prog" 0 9 [fnNode leafText]

/-- Diff info marking line 1 of a file as added. -/
def fiOf (p : String) : FileInfo := ⟨p, [⟨1, "x", "added"⟩], []⟩

/-- Configuration with every analyzer enabled and no explicit similarity
threshold. -/
def cfgAll : ArchGuardConfig := ⟨⟨true, true, true, ⟨true, none⟩, true⟩⟩

/-- Two files with structurally identical function blocks. -/
def ctxClone : AnalysisContext :=
  ⟨[fiOf "F.ts", fiOf "G.ts"],
   [⟨"F.ts", fnTree "body"⟩, ⟨"G.ts", fnTree "body"⟩], cfgAll⟩

/-- The same two files presented in the opposite order. -/
def ctxCloneSwapped : AnalysisContext :=
  ⟨[fiOf "F.ts", fiOf "G.ts"],
   [⟨"G.ts", fnTree "body"⟩, ⟨"F.ts", fnTree "body"⟩], cfgAll⟩

/-- The second leaf text of the djb2 collision pair: `c` followed by the
code unit 133. Since `33·('d'-'c') + ('d'-133) = 0`, the normalized
strings `(function_declaration dd)` and `(function_declaration c\x85)`
differ but have equal djb2 hashes. -/
def collideText : String := String.mk ['c', Char.ofNat 133]

/-- Two files whose blocks have different normalized strings but equal
structural hashes. -/
def ctxCollision : AnalysisContext :=
  ⟨[fiOf "F.ts", fiOf "G.ts"],
   [⟨"F.ts", fnTree "dd"⟩, ⟨"G.ts", fnTree collideText⟩], cfgAll⟩

/-- A file tree whose `function_declaration` starts on the same line as
the `if_statement` nested inside it, so the two blocks share their
`file:startLine` key. -/
def nestedTree : Node :=
  .mk "program" "prog" 0 9
    [.mk "function_declaration" "function f() {}" 0 9
      [.mk "if_statement" "if (x) {}" 0 7 [leafN "kw" "body" 0 7]]]

/-- Two copies of the nested tree: two structural buckets of size two
whose four blocks span only two distinct `file:startLine` keys. -/
def ctxNested : AnalysisContext :=
  ⟨[fiOf "F.ts", fiOf "G.ts"],
   [⟨"F.ts", nestedTree⟩, ⟨"G.ts", nestedTree⟩], cfgAll⟩

/-- A context with no files and no parsed files. -/
def ctxEmpty : AnalysisContext := ⟨[], [], cfgAll⟩

/-- A context whose parsed file `H.ts` has no matching diff entry. -/
def ctxOrphan : AnalysisContext := ⟨[fiOf "F.ts"], [⟨"H.ts", fnTree "body"⟩], cfgAll⟩

/-- A sample finding for pipeline witnesses. -/
def sampleFinding (rule : String) (sev : Severity) (l : Nat) : Finding :=
  ⟨rule, "security", sev, "msg", "F.ts", l, none, none, none, none, none⟩

/-- An analyzer whose task fulfills with two findings. -/
def anOk : Analyzer :=
  ⟨"security", fun _ => Except.ok
    [sampleFinding "sec/a" Severity.error 1, sampleFinding "sec/a" Severity.error 1]⟩

/-- An analyzer whose task rejects (throw or timeout). -/
def anBad : Analyzer := ⟨"conventions", fun _ => Except.error "boom"⟩

/-- A second fulfilled analyzer emitting a duplicate of `anOk`'s finding
and one fresh warning. -/
def anOk2 : Analyzer :=
  ⟨"architecture", fun _ => Except.ok
    [sampleFinding "sec/a" Severity.error 1, sampleFinding "arch/b" Severity.warning 2]⟩

/-! Jaccard similarity (claim C1). -/

/-- Sum of a function over the distinct members of a list equals the
corresponding `Finset` sum. -/
theorem sum_dedup_eq_finset (l : List String) (f : String → Nat) :
    (l.dedup.map f).sum = Finset.sum l.toFinset f := by
  simp [List.toFinset, Multiset.toFinset, Finset.sum]

/-- The accumulated intersection equals the spec-side multiset
intersection size. -/
theorem interCount_eq_spec (a b : List String) : interCount a b = specInter a b := by
  unfold interCount specInter allKeys toBagCount
  rw [sum_dedup_eq_finset, List.toFinset_append]

/-- The accumulated union equals the spec-side multiset union size. -/
theorem unionCount_eq_spec (a b : List String) : unionCount a b = specUnion a b := by
  unfold unionCount specUnion allKeys toBagCount
  rw [sum_dedup_eq_finset, List.toFinset_append]

/-- The source Jaccard computation equals the spec-side ratio. -/
theorem jaccard_eq_spec (a b : List String) :
    jaccardSimilarity a b = specJaccard a b := by
  unfold jaccardSimilarity specJaccard
  rcases a with _ | ⟨x, xs⟩
  · simp
  · rcases b with _ | ⟨y, ys⟩
    · simp
    · have hxa : ¬((x :: xs).length = 0 ∧ (y :: ys).length = 0) := by simp
      have hxo : ¬((x :: xs).length = 0 ∨ (y :: ys).length = 0) := by simp
      have hea : ¬(x :: xs = [] ∧ y :: ys = []) := by simp
      have heo : ¬(x :: xs = [] ∨ y :: ys = []) := by simp
      rw [if_neg hxa, if_neg hxo, if_neg hea, if_neg heo,
        ← interCount_eq_spec, ← unionCount_eq_spec]
      by_cases h : unionCount (x :: xs) (y :: ys) = 0
      · rw [if_pos h, h]
        simp
      · rw [if_neg h, Rat.mkRat_eq_div, Int.cast_natCast]

/-- Identical token sequences score 1. -/
theorem jaccard_self (a : List String) : jaccardSimilarity a a = 1 := by
  rcases a with _ | ⟨x, xs⟩
  · simp [jaccardSimilarity]
  · have heq : interCount (x :: xs) (x :: xs) = unionCount (x :: xs) (x :: xs) := by
      unfold interCount unionCount
      simp
    have hpos : unionCount (x :: xs) (x :: xs) ≠ 0 := by
      unfold unionCount
      intro h0
      have hx : x ∈ allKeys (x :: xs) (x :: xs) := by
        unfold allKeys
        simp [List.mem_dedup]
      have hterm : max (toBagCount (x :: xs) x) (toBagCount (x :: xs) x)
          ∈ (allKeys (x :: xs) (x :: xs)).map
            (fun k => max (toBagCount (x :: xs) k) (toBagCount (x :: xs) k)) :=
        List.mem_map_of_mem _ hx
      have hle := List.single_le_sum (by intro y hy; exact Nat.zero_le y) _ hterm
      rw [h0] at hle
      have hcnt : 0 < toBagCount (x :: xs) x := by
        unfold toBagCount
        exact List.count_pos_iff.mpr (by simp)
      omega
    unfold jaccardSimilarity
    rw [if_neg (by simp), if_neg (by simp), if_neg hpos, heq, Rat.mkRat_eq_div,
      Int.cast_natCast, div_self (Nat.cast_ne_zero.mpr hpos)]

/-- Fully disjoint nonempty token sequences score 0. -/
theorem jaccard_disjoint (a b : List String) (ha : a ≠ []) (hb : b ≠ [])
    (h : ∀ t, t ∈ a → t ∉ b) : jaccardSimilarity a b = 0 := by
  have hzero : interCount a b = 0 := by
    unfold interCount
    apply List.sum_eq_zero
    intro n hn
    rcases List.mem_map.mp hn with ⟨k, hk, rfl⟩
    have hk2 : k ∈ a ++ b := by
      have hmem := hk
      unfold allKeys at hmem
      exact List.mem_dedup.mp hmem
    rcases List.mem_append.mp hk2 with hka | hkb
    · have hc : toBagCount b k = 0 := List.count_eq_zero.mpr (h k hka)
      simp [hc]
    · by_cases hka : k ∈ a
      · have hc : toBagCount b k = 0 := List.count_eq_zero.mpr (h k hka)
        simp [hc]
      · have hc : toBagCount a k = 0 := List.count_eq_zero.mpr hka
        simp [hc]
  unfold jaccardSimilarity
  rw [if_neg (by simp [ha, hb]), if_neg (by simp [ha, hb])]
  by_cases hu : unionCount a b = 0
  · rw [if_pos hu]
  · rw [if_neg hu, hzero]
    simp [Rat.mkRat_eq_div]

/-- C1: `jaccardSimilarity` computes the multiset intersection-over-union
of the two token frequency maps (sum of per-token minima over sum of
per-token maxima), returning 1 when both sequences are empty and 0 when
exactly one is empty; identical sequences give 1, fully disjoint
sequences give 0, and `['a','a','b']` versus `['a','b','b']` gives 0.5. -/
theorem jaccardSimilarity_matches_multiset_spec (a b : List String) :
    jaccardSimilarity a b = specJaccard a b ∧
    (a = [] ∧ b = [] → jaccardSimilarity a b = 1) ∧
    ((a = [] ∧ b ≠ []) ∨ (a ≠ [] ∧ b = []) → jaccardSimilarity a b = 0) ∧
    jaccardSimilarity a a = 1 ∧
    (a ≠ [] → b ≠ [] → (∀ t, t ∈ a → t ∉ b) → jaccardSimilarity a b = 0) ∧
    jaccardSimilarity ["a", "a", "b"] ["a", "b", "b"] = 1 / 2 := by
  refine ⟨jaccard_eq_spec a b, ?_, ?_, jaccard_self a, jaccard_disjoint a b, ?_⟩
  · rintro ⟨rfl, rfl⟩
    simp [jaccardSimilarity]
  · rintro (⟨rfl, hb⟩ | ⟨ha, rfl⟩)
    · unfold jaccardSimilarity
      rw [if_neg (by simp [hb]), if_pos (by simp)]
    · unfold jaccardSimilarity
      rw [if_neg (by simp [ha]), if_pos (by simp)]
  · have h : jaccardSimilarity ["a", "a", "b"] ["a", "b", "b"] = mkRat 2 4 := by decide
    rw [h, Rat.mkRat_eq_div]
    norm_num

/-- Witness for C1 at concrete inputs, discharging every hypothesis. -/
theorem jaccardSimilarity_matches_multiset_spec_witness :
    jaccardSimilarity [] [] = 1 ∧
    jaccardSimilarity [] ["y"] = 0 ∧
    jaccardSimilarity ["x"] ["y"] = 0 :=
  ⟨(jaccardSimilarity_matches_multiset_spec [] []).2.1 ⟨rfl, rfl⟩,
   (jaccardSimilarity_matches_multiset_spec [] ["y"]).2.2.1
     (Or.inl ⟨rfl, by decide⟩),
   (jaccardSimilarity_matches_multiset_spec ["x"] ["y"]).2.2.2.2.1
     (by decide) (by decide) (by decide)⟩

/-! Canonicalizer (claim C7). -/

/-- Unfolding of `normalizeNode` on a constructed node. -/
theorem normalizeNode_mk (k t : String) (s e : Nat) (cs : List Node) :
    normalizeNode (.mk k t s e cs) =
      if k ∈ IDENTIFIER_NODE_TYPES then "$ID"
      else if k ∈ LITERAL_NODE_TYPES then "$LIT"
      else if cs.isEmpty then t
      else "(" ++ k ++ " " ++ joinSpace (normalizeChildren cs) ++ ")" := rfl

/-- Unfolding of `specNormalize` on a childless node. -/
theorem specNormalize_mk_nil (k t : String) (s e : Nat) :
    specNormalize (.mk k t s e []) =
      if k ∈ IDENTIFIER_NODE_TYPES then "$ID"
      else if k ∈ LITERAL_NODE_TYPES then "$LIT"
      else t := rfl

/-- Unfolding of `specNormalize` on a node with children. -/
theorem specNormalize_mk_cons (k t : String) (s e : Nat) (c : Node) (rest : List Node) :
    specNormalize (.mk k t s e (c :: rest)) =
      if k ∈ IDENTIFIER_NODE_TYPES then "$ID"
      else if k ∈ LITERAL_NODE_TYPES then "$LIT"
      else "(" ++ k ++ specNormChildren (c :: rest) ++ ")" := rfl

/-- Unfolding of `normalizeChildren` on a cons. -/
theorem normalizeChildren_cons (c : Node) (cs : List Node) :
    normalizeChildren (c :: cs) = normalizeNode c :: normalizeChildren cs := rfl

/-- Unfolding of `specNormChildren` on a cons. -/
theorem specNormChildren_cons (c : Node) (cs : List Node) :
    specNormChildren (c :: cs) = " " ++ specNormalize c ++ specNormChildren cs := rfl

/-- Unfolding of `joinSpace` on a two-element-or-more list. -/
theorem joinSpace_cons_cons (s t : String) (rest : List String) :
    joinSpace (s :: t :: rest) = s ++ " " ++ joinSpace (t :: rest) := rfl

mutual
/-- The source normalization agrees with the spec-side normalization on
every node. -/
theorem normalize_eq_spec : ∀ n : Node, normalizeNode n = specNormalize n
  | .mk k t s e cs => by
    rcases cs with _ | ⟨c, rest⟩
    · rw [normalizeNode_mk, specNormalize_mk_nil]
      simp
    · rw [normalizeNode_mk, specNormalize_mk_cons]
      simp only [List.isEmpty_cons, Bool.false_eq_true, if_false]
      by_cases h1 : k ∈ IDENTIFIER_NODE_TYPES
      · simp [h1]
      · by_cases h2 : k ∈ LITERAL_NODE_TYPES
        · simp [h1, h2]
        · simp only [h1, h2, if_false]
          rw [← normChildren_join (c :: rest) (by simp)]
          simp [String.append_assoc]
  termination_by structural n => n
/-- Space-joined normalized children agree with the spec-side child
rendering. -/
theorem normChildren_join : ∀ cs : List Node, cs ≠ [] →
    " " ++ joinSpace (normalizeChildren cs) = specNormChildren cs
  | [], h => absurd rfl h
  | [c], _ => by
    rw [normalizeChildren_cons, specNormChildren_cons, normalize_eq_spec c]
    show " " ++ joinSpace [specNormalize c] = " " ++ specNormalize c ++ ""
    rw [joinSpace]
    simp
  | c :: d :: rest, _ => by
    rw [normalizeChildren_cons, specNormChildren_cons, normalize_eq_spec c]
    have hd : normalizeChildren (d :: rest) = normalizeNode d :: normalizeChildren rest := rfl
    rw [hd, joinSpace_cons_cons, ← hd, ← normChildren_join (d :: rest) (by simp)]
    simp [String.append_assoc]
  termination_by structural l => l
end

/-- Unfolding of `preorder` on a constructed node. -/
theorem preorder_mk (k t : String) (s e : Nat) (cs : List Node) :
    preorder (.mk k t s e cs) = .mk k t s e cs :: preorderList cs := rfl

/-- Unfolding of `preorderList` on a cons. -/
theorem preorderList_cons (c : Node) (cs : List Node) :
    preorderList (c :: cs) = preorder c ++ preorderList cs := rfl

/-- Unfolding of `specTokens` on a constructed node. -/
theorem specTokens_mk (k t : String) (s e : Nat) (cs : List Node) :
    specTokens (.mk k t s e cs) = tokenClass (.mk k t s e cs) :: specTokensList cs := rfl

/-- Unfolding of `specTokensList` on a cons. -/
theorem specTokensList_cons (c : Node) (cs : List Node) :
    specTokensList (c :: cs) = specTokens c ++ specTokensList cs := rfl

mutual
/-- The walk-based tokenizer agrees with the spec-side direct recursion. -/
theorem tokenize_eq_spec : ∀ n : Node, tokenizeNode n = specTokens n
  | .mk k t s e cs => by
    rw [tokenizeNode, preorder_mk, specTokens_mk, List.map_cons,
      tokensList_eq_spec cs]
  termination_by structural n => n
/-- Tokens of a sibling list agree with the spec-side concatenation. -/
theorem tokensList_eq_spec : ∀ cs : List Node,
    (preorderList cs).map tokenClass = specTokensList cs
  | [] => rfl
  | c :: cs => by
    rw [preorderList_cons, specTokensList_cons, List.map_append,
      tokensList_eq_spec cs]
    have h := tokenize_eq_spec c
    rw [tokenizeNode] at h
    rw [h]
  termination_by structural l => l
end

/-- C7: the structural normalization returns `$ID` for identifier-like
nodes, `$LIT` for literal-like nodes, the verbatim text for any other
childless node, and `(kind child₁ … childₙ)` over the recursively
normalized children otherwise; and the token sequence is a pre-order walk
emitting exactly one token per visited node under the same
classification, with the bare kind for other internal nodes. -/
theorem canonicalizer_matches_spec (n : Node) :
    normalizeNode n = specNormalize n ∧ tokenizeNode n = specTokens n :=
  ⟨normalize_eq_spec n, tokenize_eq_spec n⟩

/-! Pipeline orchestrator (claims C4, C5, C9). -/

/-- The analyzer results are the enabled analyzers settled in list order. -/
theorem runPipeline_results_eq (context : AnalysisContext) (analyzers : List Analyzer) :
    (runPipeline context analyzers).analyzerResults =
      (analyzers.filter (fun a => isAnalyzerEnabled a.name context)).map
        (settleAnalyzer context) := rfl

/-- C4: the pipeline returns one `AnalyzerResult` per enabled analyzer
(the list lengths agree); the per-task timeout constant is 5000 ms; a
rejected task (throw or timeout) yields an entry with zero findings and
the error description, while a fulfilled task keeps its findings — each
entry is a function of its own analyzer's outcome alone, so failures
never disturb sibling entries or abort the pipeline. -/
theorem runPipeline_isolates_failures (context : AnalysisContext)
    (analyzers : List Analyzer) :
    (runPipeline context analyzers).analyzerResults.length
      = (analyzers.filter (fun a => isAnalyzerEnabled a.name context)).length ∧
    ANALYZER_TIMEOUT_MS = 5000 ∧
    (∀ (i : Nat) (a : Analyzer),
      (analyzers.filter (fun x => isAnalyzerEnabled x.name context))[i]? = some a →
      (∀ e, a.outcome context = Except.error e →
        (runPipeline context analyzers).analyzerResults[i]? =
          some ⟨a.name, [], 0, some e⟩) ∧
      (∀ fs, a.outcome context = Except.ok fs →
        (runPipeline context analyzers).analyzerResults[i]? =
          some ⟨a.name, fs, 0, none⟩)) := by
  refine ⟨by rw [runPipeline_results_eq, List.length_map], rfl, ?_⟩
  intro i a ha
  constructor
  · intro e he
    rw [runPipeline_results_eq, List.getElem?_map, ha]
    simp [settleAnalyzer, he]
  · intro fs hfs
    rw [runPipeline_results_eq, List.getElem?_map, ha]
    simp [settleAnalyzer, hfs]

/-- Witness for C4: a failing analyzer next to a succeeding one. -/
theorem runPipeline_isolates_failures_witness :
    (runPipeline ctxEmpty [anOk, anBad]).analyzerResults[1]? =
      some ⟨"conventions", [], 0, some "boom"⟩ ∧
    (runPipeline ctxEmpty [anOk, anBad]).analyzerResults.length = 2 :=
  ⟨((runPipeline_isolates_failures ctxEmpty [anOk, anBad]).2.2 1 anBad rfl).1
      "boom" rfl,
   by decide⟩

/-- Unfolding of `specDedup` on the empty list. -/
theorem specDedup_nil : specDedup [] = [] := by rw [specDedup]

/-- Unfolding of `specDedup` on a cons. -/
theorem specDedup_cons (f : Finding) (fs : List Finding) :
    specDedup (f :: fs) =
      f :: specDedup (fs.filter (fun g => !(findingKey g == findingKey f))) := by
  rw [specDedup]

/-- The seen-set filter of `dedupeGo` agrees with the spec-side
first-occurrence recursion on the not-yet-seen findings. -/
theorem dedupeGo_spec (l : List Finding) : ∀ seen : List String,
    dedupeGo seen l = specDedup (l.filter (fun g => findingKey g ∉ seen)) := by
  induction l with
  | nil =>
    intro seen
    rw [List.filter_nil, dedupeGo, specDedup_nil]
  | cons f fs ih =>
    intro seen
    by_cases h : findingKey f ∈ seen
    · rw [dedupeGo, if_pos h, ih seen, List.filter_cons]
      simp [h]
    · rw [dedupeGo, if_neg h, ih (findingKey f :: seen), List.filter_cons]
      have hf : decide (findingKey f ∉ seen) = true := by simp [h]
      rw [hf]
      simp only [if_true]
      rw [specDedup_cons, List.filter_filter]
      congr 2
      apply List.filter_congr
      intro g _
      by_cases h1 : findingKey g = findingKey f <;>
        by_cases h2 : findingKey g ∈ seen <;> simp [h1, h2]

/-- The source deduplication equals the spec-side first-occurrence
deduplication. -/
theorem deduplicateFindings_eq_spec (l : List Finding) :
    deduplicateFindings l = specDedup l := by
  rw [deduplicateFindings, dedupeGo_spec]
  congr 1
  apply List.filter_eq_self.mpr
  intro a _
  simp

/-- C5: `totalFindings` counts the flattened findings deduplicated by the
`(ruleId, file, line)` key keeping the first occurrence in the fixed
analyzer-list order (the flattening follows the enabled-analyzer list
order by construction, never completion order); the per-severity counts
are taken over that deduplicated list; and each analyzer entry keeps its
own findings list undeduplicated. -/
theorem runPipeline_dedup_spec (context : AnalysisContext) (analyzers : List Analyzer) :
    let s := runPipeline context analyzers
    let flat := s.analyzerResults.foldr (fun r rest => r.findings ++ rest) []
    s.totalFindings = (specDedup flat).length ∧
    s.errors = ((specDedup flat).filter (fun f => f.severity == Severity.error)).length ∧
    s.warnings = ((specDedup flat).filter (fun f => f.severity == Severity.warning)).length ∧
    s.infos = ((specDedup flat).filter (fun f => f.severity == Severity.info)).length ∧
    (∀ (i : Nat) (a : Analyzer) (fs : List Finding),
      (analyzers.filter (fun x => isAnalyzerEnabled x.name context))[i]? = some a →
      a.outcome context = Except.ok fs →
      s.analyzerResults[i]?.map (fun r => r.findings) = some fs) := by
  refine ⟨?_, ?_, ?_, ?_, ?_⟩
  · show (deduplicateFindings _).length = _
    rw [deduplicateFindings_eq_spec]
    rfl
  · show ((deduplicateFindings _).filter _).length = _
    rw [deduplicateFindings_eq_spec]
    rfl
  · show ((deduplicateFindings _).filter _).length = _
    rw [deduplicateFindings_eq_spec]
    rfl
  · show ((deduplicateFindings _).filter _).length = _
    rw [deduplicateFindings_eq_spec]
    rfl
  · intro i a fs ha hfs
    show ((analyzers.filter (fun x => isAnalyzerEnabled x.name context)).map
      (settleAnalyzer context))[i]?.map (fun r => r.findings) = some fs
    rw [List.getElem?_map, ha]
    simp [settleAnalyzer, hfs]

/-- Witness for C5: two analyzers emitting an identical finding keep
their own lists intact while the total counts the deduplicated set. -/
theorem runPipeline_dedup_spec_witness :
    (runPipeline ctxEmpty [anOk, anBad, anOk2]).analyzerResults[0]?.map
        (fun r => r.findings) =
      some [sampleFinding "sec/a" Severity.error 1,
            sampleFinding "sec/a" Severity.error 1] ∧
    (runPipeline ctxEmpty [anOk, anBad, anOk2]).totalFindings = 2 :=
  ⟨(runPipeline_dedup_spec ctxEmpty [anOk, anBad, anOk2]).2.2.2.2 0 anOk _ rfl rfl,
   by decide⟩

/-- C9: degenerate inputs give a well-formed zero summary and no
findings: with no enabled analyzer the summary has zero findings, zero
severity counts and an empty result list; a context with no parsed files,
or more generally no extracted block, makes the duplicate analyzer
return no findings.  (All embedded functions are total, so no error can
be raised.) -/
theorem degenerate_inputs_yield_zero (context : AnalysisContext)
    (analyzers : List Analyzer) :
    (analyzers.filter (fun a => isAnalyzerEnabled a.name context) = [] →
      runPipeline context analyzers = ⟨context.files.length, 0, 0, 0, 0, [], 0⟩) ∧
    (context.parsedFiles = [] → DuplicateDetector.analyze context = []) ∧
    (allBlocksOf context = [] → DuplicateDetector.analyze context = []) := by
  have hnb : ∀ c : AnalysisContext, allBlocksOf c = [] →
      DuplicateDetector.analyze c = [] := by
    intro c hb
    unfold DuplicateDetector.analyze
    rw [hb]
    rfl
  refine ⟨?_, ?_, hnb context⟩
  · intro h
    unfold runPipeline
    rw [h]
    rfl
  · intro h
    apply hnb
    unfold allBlocksOf
    rw [h]
    rfl

/-- Witness for C9: the empty context with no analyzers. -/
theorem degenerate_inputs_yield_zero_witness :
    runPipeline ctxEmpty [] = ⟨0, 0, 0, 0, 0, [], 0⟩ ∧
    DuplicateDetector.analyze ctxEmpty = [] :=
  ⟨(degenerate_inputs_yield_zero ctxEmpty []).1 rfl,
   (degenerate_inputs_yield_zero ctxEmpty []).2.1 rfl⟩

/-! Membership lemmas shared by the duplicate-engine claims. -/
/-- Components of an ordered pair come from the underlying list. -/
theorem pairsOrdered_mem {α : Type} (l : List α) (p : α × α)
    (hp : p ∈ pairsOrdered l) : p.1 ∈ l ∧ p.2 ∈ l := by
  induction l with
  | nil => cases hp
  | cons x xs ih =>
    rw [pairsOrdered] at hp
    rcases List.mem_append.mp hp with h | h
    · rcases List.mem_map.mp h with ⟨y, hy, rfl⟩
      exact ⟨List.mem_cons_self _ _, List.mem_cons_of_mem _ hy⟩
    · rcases ih h with ⟨h1, h2⟩
      exact ⟨List.mem_cons_of_mem _ h1, List.mem_cons_of_mem _ h2⟩

/-- Pairs accumulated by the structural loop come from the input or the
initial accumulator. -/
theorem foldl_structStep_mem (ps : List (CodeBlock × CodeBlock))
    (acc : List String × List (CodeBlock × CodeBlock)) (p : CodeBlock × CodeBlock)
    (hp : p ∈ (ps.foldl structStep acc).2) : p ∈ acc.2 ∨ p ∈ ps := by
  induction ps generalizing acc with
  | nil => exact Or.inl hp
  | cons q qs ih =>
    rw [List.foldl_cons] at hp
    rcases ih (structStep acc q) hp with h | h
    · rw [structStep] at h
      by_cases hk : pairKey q.1 q.2 ∈ acc.1
      · rw [if_pos hk] at h
        exact Or.inl h
      · rw [if_neg hk] at h
        rcases List.mem_append.mp h with h2 | h2
        · exact Or.inl h2
        · rcases List.mem_singleton.mp h2 with rfl
          exact Or.inr (List.mem_cons_self _ _)
    · exact Or.inr (List.mem_cons_of_mem _ h)

/-- Every reported structural pair is an ordered pair of some bucket. -/
theorem structuralPass_mem (buckets : List (Int × List CodeBlock))
    (p : CodeBlock × CodeBlock) (hp : p ∈ (structuralPass buckets).2) :
    ∃ e ∈ buckets, p ∈ pairsOrdered e.2 := by
  rw [structuralPass] at hp
  suffices h : ∀ acc : List String × List (CodeBlock × CodeBlock),
      p ∈ (buckets.foldl (fun acc e =>
        if e.2.length < 2 then acc
        else (pairsOrdered e.2).foldl structStep acc) acc).2 →
      p ∈ acc.2 ∨ ∃ e ∈ buckets, p ∈ pairsOrdered e.2 by
    rcases h ([], []) hp with h2 | h2
    · cases h2
    · exact h2
  clear hp
  induction buckets with
  | nil => intro acc hp; exact Or.inl hp
  | cons e es ih =>
    intro acc hp
    rw [List.foldl_cons] at hp
    by_cases hl : e.2.length < 2
    · rw [if_pos hl] at hp
      rcases ih acc hp with h | ⟨e2, he2, hpe⟩
      · exact Or.inl h
      · exact Or.inr ⟨e2, List.mem_cons_of_mem _ he2, hpe⟩
    · rw [if_neg hl] at hp
      rcases ih _ hp with h | ⟨e2, he2, hpe⟩
      · rcases foldl_structStep_mem _ _ _ h with h2 | h2
        · exact Or.inl h2
        · exact Or.inr ⟨e, List.mem_cons_self _ _, h2⟩
      · exact Or.inr ⟨e2, List.mem_cons_of_mem _ he2, hpe⟩

/-- Pairs accumulated by the similarity loop come from the input or the
initial accumulator. -/
theorem foldl_similarStep_mem (s : ℚ) (rep : List String)
    (ps : List (CodeBlock × CodeBlock))
    (acc : List String × List (CodeBlock × CodeBlock)) (p : CodeBlock × CodeBlock)
    (hp : p ∈ (ps.foldl (similarStep s rep) acc).2) : p ∈ acc.2 ∨ p ∈ ps := by
  induction ps generalizing acc with
  | nil => exact Or.inl hp
  | cons q qs ih =>
    rw [List.foldl_cons] at hp
    rcases ih (similarStep s rep acc q) hp with h | h
    · simp only [similarStep] at h
      split at h
      · exact Or.inl h
      · split at h
        · exact Or.inl h
        · split at h
          · exact Or.inl h
          · split at h
            · rcases List.mem_append.mp h with h2 | h2
              · exact Or.inl h2
              · rcases List.mem_singleton.mp h2 with rfl
                exact Or.inr (List.mem_cons_self _ _)
            · exact Or.inl h
    · exact Or.inr (List.mem_cons_of_mem _ h)

/-- Every reported similar pair has both components in the block list. -/
theorem similarPass_mem (blocks : List CodeBlock) (rep : List String) (s : ℚ)
    (p : CodeBlock × CodeBlock) (hp : p ∈ similarPass blocks rep s) :
    p.1 ∈ blocks ∧ p.2 ∈ blocks := by
  rw [similarPass] at hp
  rcases foldl_similarStep_mem s rep _ ([], []) p hp with h | h
  · cases h
  · exact pairsOrdered_mem _ _ h

/-- Bucket members come from the hashed block list and carry the bucket
key as hash. -/
theorem buildHashMap_mem (blocks : List CodeBlock) (e : Int × List CodeBlock)
    (he : e ∈ buildHashMap blocks) (b : CodeBlock) (hb : b ∈ e.2) :
    b ∈ blocks ∧ b.hash = e.1 := by
  rw [buildHashMap] at he
  suffices h : ∀ m : List (Int × List CodeBlock),
      (∀ e2 ∈ m, ∀ b2 ∈ e2.2, b2 ∈ blocks ∧ b2.hash = e2.1) →
      ∀ e2 ∈ blocks.foldl insertBlock m, ∀ b2 ∈ e2.2, b2 ∈ blocks ∧ b2.hash = e2.1 by
    exact h [] (by intro e2 h2; cases h2) e he b hb
  have hstep : ∀ (sub : List CodeBlock), (∀ x ∈ sub, x ∈ blocks) →
      ∀ m : List (Int × List CodeBlock),
      (∀ e2 ∈ m, ∀ b2 ∈ e2.2, b2 ∈ blocks ∧ b2.hash = e2.1) →
      ∀ e2 ∈ sub.foldl insertBlock m, ∀ b2 ∈ e2.2, b2 ∈ blocks ∧ b2.hash = e2.1 := by
    intro sub
    induction sub with
    | nil => intro _ m hm; exact hm
    | cons x xs ih =>
      intro hsub m hm
      rw [List.foldl_cons]
      apply ih (fun y hy => hsub y (List.mem_cons_of_mem _ hy))
      intro e2 he2 b2 hb2
      rw [insertBlock] at he2
      by_cases hany : m.any (fun en => en.1 == x.hash)
      · rw [if_pos hany] at he2
        rcases List.mem_map.mp he2 with ⟨e3, he3, rfl⟩
        by_cases hx : e3.1 == x.hash
        · rw [if_pos hx] at hb2 ⊢
          simp only [] at hb2 ⊢
          rcases List.mem_append.mp hb2 with h4 | h4
          · rcases hm e3 he3 b2 h4 with ⟨hA, hB⟩
            exact ⟨hA, hB⟩
          · rcases List.mem_singleton.mp h4 with rfl
            refine ⟨hsub _ (List.mem_cons_self _ _), ?_⟩
            exact (beq_iff_eq.mp hx).symm
        · rw [if_neg hx] at hb2 ⊢
          exact hm e3 he3 b2 hb2
      · rw [if_neg hany] at he2
        rcases List.mem_append.mp he2 with h3 | h3
        · exact hm e2 h3 b2 hb2
        · rcases List.mem_singleton.mp h3 with rfl
          rcases List.mem_singleton.mp hb2 with rfl
          exact ⟨hsub _ (List.mem_cons_self _ _), rfl⟩
  intro m hm
  exact hstep blocks (fun x hx => hx) m hm

/-- Every block of a run is extracted from one of the parsed files. -/
theorem allBlocksOf_mem (context : AnalysisContext) (b : CodeBlock)
    (hb : b ∈ allBlocksOf context) :
    ∃ file ∈ context.parsedFiles,
      b ∈ extractBlocks file (getChangedLines context file.path) := by
  rw [allBlocksOf] at hb
  suffices h : ∀ fls : List ParsedFile,
      b ∈ fls.foldr (fun file rest =>
        extractBlocks file (getChangedLines context file.path) ++ rest) [] →
      ∃ file ∈ fls, b ∈ extractBlocks file (getChangedLines context file.path) from
    h context.parsedFiles hb
  intro fls hmem
  induction fls with
  | nil => cases hmem
  | cons f fs ih =>
    rw [List.foldr_cons] at hmem
    rcases List.mem_append.mp hmem with h | h
    · exact ⟨f, List.mem_cons_self _ _, h⟩
    · rcases ih h with ⟨f2, hf2, h2⟩
      exact ⟨f2, List.mem_cons_of_mem _ hf2, h2⟩

/-- A successful overlap test yields a changed line inside the span. -/
theorem overlaps_exists (startLine endLine : Nat) (cl : List Nat)
    (h : overlapsChangedLines startLine endLine cl = true) :
    ∃ l, startLine ≤ l ∧ l ≤ endLine ∧ l ∈ cl := by
  rw [overlapsChangedLines, List.any_eq_true] at h
  rcases h with ⟨l, hl, hc⟩
  have hr := List.mem_range'_1.mp hl
  refine ⟨l, hr.1, by omega, ?_⟩
  simpa using hc

/-- Characterization of an extracted block: it belongs to its file, spans
at least `MIN_BLOCK_LINES` lines, overlaps a changed line, and carries
the hash, tokens, lines, snippet and kind of a block-worthy node. -/
theorem extractBlocks_mem (file : ParsedFile) (cl : List Nat) (b : CodeBlock)
    (hb : b ∈ extractBlocks file cl) :
    b.filePath = file.path ∧
    MIN_BLOCK_LINES ≤ b.endLine - b.startLine + 1 ∧
    (∃ l, b.startLine ≤ l ∧ l ≤ b.endLine ∧ l ∈ cl) ∧
    (∃ node ∈ findNodes file.tree BLOCK_NODE_TYPES,
      b = ⟨hashNode node, tokenizeNode node, file.path,
           node.startLine0 + 1, node.endLine0 + 1, node.text, node.kind⟩) := by
  rw [extractBlocks] at hb
  rcases List.mem_filterMap.mp hb with ⟨node, hn, heq⟩
  simp only [] at heq
  by_cases h1 : node.endLine0 + 1 - (node.startLine0 + 1) + 1 < MIN_BLOCK_LINES
  · rw [if_pos h1] at heq
    cases heq
  · rw [if_neg h1] at heq
    by_cases h2 : overlapsChangedLines (node.startLine0 + 1) (node.endLine0 + 1) cl
    · rw [if_neg (by simp [h2])] at heq
      rcases Option.some_inj.mp heq with rfl
      refine ⟨rfl, ?_, ?_, node, hn, rfl⟩
      · show MIN_BLOCK_LINES ≤ node.endLine0 + 1 - (node.startLine0 + 1) + 1
        omega
      · exact overlaps_exists _ _ _ h2
    · rw [if_pos (by simp [h2])] at heq
      cases heq

/-- The findings of `analyze` are the structural pairs then the similar
pairs, each rendered by its finding constructor. -/
theorem analyze_eq (context : AnalysisContext) :
    DuplicateDetector.analyze context =
      ((structuralPass (buildHashMap (allBlocksOf context))).2.map
        (fun p => structuralCloneFinding p.1 p.2)) ++
      ((similarPass (allBlocksOf context)
          (structuralPass (buildHashMap (allBlocksOf context))).1
          (similarityOf context)).map
        (fun p => similarBlockFinding p.1 p.2)) := rfl

/-- Both components of any reported pair are blocks of the run. -/
theorem pair_blocks_extracted (context : AnalysisContext) (p : CodeBlock × CodeBlock)
    (hp : p ∈ (structuralPass (buildHashMap (allBlocksOf context))).2 ∨
      p ∈ similarPass (allBlocksOf context)
            (structuralPass (buildHashMap (allBlocksOf context))).1
            (similarityOf context)) :
    p.1 ∈ allBlocksOf context ∧ p.2 ∈ allBlocksOf context := by
  rcases hp with hp | hp
  · rcases structuralPass_mem _ _ hp with ⟨e, he, hpe⟩
    rcases pairsOrdered_mem _ _ hpe with ⟨h1, h2⟩
    exact ⟨(buildHashMap_mem _ e he _ h1).1, (buildHashMap_mem _ e he _ h2).1⟩
  · exact similarPass_mem _ _ _ _ hp

/-- C6: every `CodeBlock` produced by `extractBlocks` spans at least 5
lines inclusively and contains a changed line in its span; consequently
every block of every reported duplicate pair (structural or similar) is
such an extracted block, so shorter or non-overlapping blocks never
contribute to any duplicate finding. -/
theorem block_span_and_overlap_invariant :
    (∀ (file : ParsedFile) (cl : List Nat) (b : CodeBlock), b ∈ extractBlocks file cl →
      MIN_BLOCK_LINES ≤ b.endLine - b.startLine + 1 ∧
      ∃ l, b.startLine ≤ l ∧ l ≤ b.endLine ∧ l ∈ cl) ∧
    (∀ (context : AnalysisContext) (p : CodeBlock × CodeBlock),
      (p ∈ (structuralPass (buildHashMap (allBlocksOf context))).2 ∨
       p ∈ similarPass (allBlocksOf context)
             (structuralPass (buildHashMap (allBlocksOf context))).1
             (similarityOf context)) →
      (∃ file ∈ context.parsedFiles,
        p.1 ∈ extractBlocks file (getChangedLines context file.path)) ∧
      (∃ file ∈ context.parsedFiles,
        p.2 ∈ extractBlocks file (getChangedLines context file.path))) := by
  constructor
  · intro file cl b hb
    rcases extractBlocks_mem file cl b hb with ⟨_, h2, h3, _⟩
    exact ⟨h2, h3⟩
  · intro context p hp
    rcases pair_blocks_extracted context p hp with ⟨h1, h2⟩
    exact ⟨allBlocksOf_mem context _ h1, allBlocksOf_mem context _ h2⟩

/-- Witness for C6 at the block extracted from a concrete file. -/
theorem block_span_and_overlap_invariant_witness :
    MIN_BLOCK_LINES ≤ ((extractBlocks ⟨"F.ts", fnTree "body"⟩ [1]).headI).endLine -
        ((extractBlocks ⟨"F.ts", fnTree "body"⟩ [1]).headI).startLine + 1 ∧
    ∃ l, ((extractBlocks ⟨"F.ts", fnTree "body"⟩ [1]).headI).startLine ≤ l ∧
      l ≤ ((extractBlocks ⟨"F.ts", fnTree "body"⟩ [1]).headI).endLine ∧ l ∈ [1] :=
  block_span_and_overlap_invariant.1 ⟨"F.ts", fnTree "body"⟩ [1]
    ((extractBlocks ⟨"F.ts", fnTree "body"⟩ [1]).headI) (by decide)

/-- C10: the changed-line set of a path with no `context.files` entry is
empty, only `addedLines` line numbers ever enter the changed-line set,
extraction against an empty changed-line set yields no blocks, and no
block or finding of a run mentions a path absent from `context.files`. -/
theorem changed_lines_added_only (context : AnalysisContext) (path : String) :
    (∀ f, context.files.find? (fun x => x.path == path) = some f →
      getChangedLines context path = f.addedLines.map (fun l => l.lineNumber)) ∧
    (∀ file : ParsedFile, extractBlocks file [] = []) ∧
    (context.files.find? (fun x => x.path == path) = none →
      getChangedLines context path = [] ∧
      (∀ b ∈ allBlocksOf context, b.filePath ≠ path) ∧
      (∀ fd ∈ DuplicateDetector.analyze context, fd.file ≠ path)) := by
  have hempty : ∀ file : ParsedFile, extractBlocks file [] = [] := by
    intro file
    rw [extractBlocks, List.filterMap_eq_nil_iff]
    intro node _
    simp only []
    by_cases h1 : node.endLine0 + 1 - (node.startLine0 + 1) + 1 < MIN_BLOCK_LINES
    · rw [if_pos h1]
    · rw [if_neg h1, if_pos]
      have hov : overlapsChangedLines (node.startLine0 + 1) (node.endLine0 + 1) [] = false := by
        rw [overlapsChangedLines]
        simp
      simp [hov]
  have hblocks : context.files.find? (fun x => x.path == path) = none →
      ∀ b ∈ allBlocksOf context, b.filePath ≠ path := by
    intro hnone b hb heq
    rcases allBlocksOf_mem context b hb with ⟨file, _, hbf⟩
    have hpath : b.filePath = file.path := (extractBlocks_mem _ _ _ hbf).1
    have hfp : file.path = path := by rw [← hpath, heq]
    have hchanged : getChangedLines context file.path = [] := by
      rw [getChangedLines, hfp, hnone]
    rw [hchanged, hempty file] at hbf
    cases hbf
  refine ⟨?_, hempty, ?_⟩
  · intro f hf
    rw [getChangedLines, hf]
  · intro hnone
    refine ⟨by rw [getChangedLines, hnone], hblocks hnone, ?_⟩
    intro fd hfd heq
    rw [analyze_eq] at hfd
    rcases List.mem_append.mp hfd with h | h
    · rcases List.mem_map.mp h with ⟨p, hp, rfl⟩
      have h1 : p.1 ∈ allBlocksOf context := (pair_blocks_extracted context p (Or.inl hp)).1
      exact hblocks hnone p.1 h1 heq
    · rcases List.mem_map.mp h with ⟨p, hp, rfl⟩
      have h1 : p.1 ∈ allBlocksOf context := (pair_blocks_extracted context p (Or.inr hp)).1
      exact hblocks hnone p.1 h1 heq

/-- Witness for C10 on a context whose parsed file has no diff entry. -/
theorem changed_lines_added_only_witness :
    getChangedLines ctxOrphan "H.ts" = [] ∧
    getChangedLines ctxOrphan "F.ts" = [1] ∧
    extractBlocks ⟨"H.ts", fnTree "body"⟩ [] = [] ∧
    allBlocksOf ctxOrphan = [] :=
  ⟨((changed_lines_added_only ctxOrphan "H.ts").2.2 rfl).1,
   ((changed_lines_added_only ctxOrphan "F.ts").1 (fiOf "F.ts") rfl).trans (by decide),
   (changed_lines_added_only ctxOrphan "H.ts").2.1 ⟨"H.ts", fnTree "body"⟩,
   by decide⟩

/-! Structural-clone bucketing (claims C3, C8, C2). -/
/-- Both members of a reported structural pair carry the bucket hash. -/
theorem structural_pairs_hash_eq (buckets : List (Int × List CodeBlock))
    (blocks : List CodeBlock) (hb : buckets = buildHashMap blocks)
    (p : CodeBlock × CodeBlock) (hp : p ∈ (structuralPass buckets).2) :
    p.1.hash = p.2.hash := by
  rcases structuralPass_mem _ _ hp with ⟨e, he, hpe⟩
  rcases pairsOrdered_mem _ _ hpe with ⟨h1, h2⟩
  subst hb
  rw [(buildHashMap_mem _ e he _ h1).2, (buildHashMap_mem _ e he _ h2).2]

/-- C3 (amended): a structural-clone pair is accepted on hash-bucket
equality alone — both blocks carry the same djb2 hash value, each being
the hash of the full normalized string of its source node — and no
comparison of the normalized strings themselves is ever performed, so
identical normalized strings imply a clone report but the converse can
fail on a hash collision. -/
theorem structural_clone_hash_bucket_only (context : AnalysisContext)
    (p : CodeBlock × CodeBlock)
    (hp : p ∈ (structuralPass (buildHashMap (allBlocksOf context))).2) :
    p.1.hash = p.2.hash ∧
    (∃ file ∈ context.parsedFiles, ∃ node ∈ findNodes file.tree BLOCK_NODE_TYPES,
      p.1.hash = simpleHash (normalizeNode node)) ∧
    (∃ file ∈ context.parsedFiles, ∃ node ∈ findNodes file.tree BLOCK_NODE_TYPES,
      p.2.hash = simpleHash (normalizeNode node)) := by
  refine ⟨structural_pairs_hash_eq _ _ rfl p hp, ?_, ?_⟩
  · rcases pair_blocks_extracted context p (Or.inl hp) with ⟨h1, _⟩
    rcases allBlocksOf_mem context _ h1 with ⟨file, hf, hbf⟩
    rcases extractBlocks_mem _ _ _ hbf with ⟨_, _, _, node, hn, heq⟩
    exact ⟨file, hf, node, hn, by rw [heq]; rfl⟩
  · rcases pair_blocks_extracted context p (Or.inl hp) with ⟨_, h2⟩
    rcases allBlocksOf_mem context _ h2 with ⟨file, hf, hbf⟩
    rcases extractBlocks_mem _ _ _ hbf with ⟨_, _, _, node, hn, heq⟩
    exact ⟨file, hf, node, hn, by rw [heq]; rfl⟩

/-- Witness for C3 on the structural pair of a concrete clone run. -/
theorem structural_clone_hash_bucket_only_witness :
    ((structuralPass (buildHashMap (allBlocksOf ctxClone))).2.headI).1.hash =
      ((structuralPass (buildHashMap (allBlocksOf ctxClone))).2.headI).2.hash :=
  (structural_clone_hash_bucket_only ctxClone
    ((structuralPass (buildHashMap (allBlocksOf ctxClone))).2.headI) (by decide)).1

/-- Counterexample to C3 as stated: the leaf texts `dd` and `c\x85`
make two blocks with different normalized strings but equal djb2 hashes
(`33·(d-c) + (d-133) = 0`), and the run reports a structural clone for
them. -/
theorem structural_clone_unverified_counterexample :
    hashNode (fnNode "dd") = hashNode (fnNode collideText) ∧
    normalizeNode (fnNode "dd") ≠ normalizeNode (fnNode collideText) ∧
    (DuplicateDetector.analyze ctxCollision).map (fun f => f.ruleId) =
      ["duplicate/structural-clone"] ∧
    allBlocksOf ctxCollision =
      [⟨hashNode (fnNode "dd"), tokenizeNode (fnNode "dd"), "F.ts", 1, 10,
        "function f() {}", "function_declaration"⟩,
       ⟨hashNode (fnNode collideText), tokenizeNode (fnNode collideText), "G.ts", 1, 10,
        "function f() {}", "function_declaration"⟩] := by
  refine ⟨by decide, by decide, by decide, by decide⟩

/-- Counterexample to C8: two contexts over the same files that differ
only in the order of `parsedFiles` produce different finding sequences,
so no canonical sorting precedes pairwise comparison. -/
theorem analyze_not_sorted_counterexample :
    ctxCloneSwapped.files = ctxClone.files ∧
    ctxCloneSwapped.parsedFiles.Perm ctxClone.parsedFiles ∧
    DuplicateDetector.analyze ctxCloneSwapped ≠ DuplicateDetector.analyze ctxClone := by
  refine ⟨rfl, ?_, by decide⟩
  exact List.Perm.swap _ _ _

/-- C8 (amended): the block collection fed to pairwise comparison is the
per-file extraction in `context.parsedFiles` order — no canonical sort is
applied — and permuting the parsed files changes the emitted findings:
with files `F`, `G` swapped the single clone finding is reported against
`G.ts` instead of `F.ts`. -/
theorem analyze_order_follows_input (context : AnalysisContext) :
    (allBlocksOf context = context.parsedFiles.foldr
      (fun file rest => extractBlocks file (getChangedLines context file.path) ++ rest) []) ∧
    ctxCloneSwapped.files = ctxClone.files ∧
    ctxCloneSwapped.parsedFiles.Perm ctxClone.parsedFiles ∧
    (DuplicateDetector.analyze ctxClone).map (fun f => f.file) = ["F.ts"] ∧
    (DuplicateDetector.analyze ctxCloneSwapped).map (fun f => f.file) = ["G.ts"] ∧
    DuplicateDetector.analyze ctxCloneSwapped ≠ DuplicateDetector.analyze ctxClone := by
  refine ⟨rfl, rfl, List.Perm.swap _ _ _, by decide, by decide, by decide⟩

/-- Characters with equal code points are equal. -/
theorem char_toNat_inj (c d : Char) (h : c.toNat = d.toNat) : c = d :=
  Char.eq_of_val_eq (UInt32.ext h)

/-- The code-unit order is irreflexive. -/
theorem jsLtChars_irrefl (s : List Char) : jsLtChars s s = false := by
  induction s with
  | nil => rfl
  | cons a as ih =>
    rw [jsLtChars]
    simp [ih]

/-- The code-unit order is asymmetric. -/
theorem jsLtChars_asymm (s t : List Char) (h : jsLtChars s t = true) :
    jsLtChars t s = false := by
  induction s generalizing t with
  | nil =>
    rcases t with _ | ⟨b, bs⟩
    · cases h
    · rfl
  | cons a as ih =>
    rcases t with _ | ⟨b, bs⟩
    · cases h
    · rw [jsLtChars] at h ⊢
      by_cases h1 : a.toNat < b.toNat
      · rw [if_neg (by omega), if_pos h1]
      · rw [if_neg h1] at h
        by_cases h2 : b.toNat < a.toNat
        · rw [if_pos h2] at h
          cases h
        · rw [if_neg h2] at h
          rw [if_neg h2, if_neg h1]
          exact ih bs h

/-- Two sequences not below each other are equal. -/
theorem jsLtChars_total (s t : List Char) (h1 : jsLtChars s t = false)
    (h2 : jsLtChars t s = false) : s = t := by
  induction s generalizing t with
  | nil =>
    rcases t with _ | ⟨b, bs⟩
    · rfl
    · cases h1
  | cons a as ih =>
    rcases t with _ | ⟨b, bs⟩
    · cases h2
    · rw [jsLtChars] at h1 h2
      by_cases hab : a.toNat < b.toNat
      · rw [if_pos hab] at h1
        cases h1
      · by_cases hba : b.toNat < a.toNat
        · rw [if_pos hba] at h2
          cases h2
        · rw [if_neg hab, if_neg hba] at h1
          rw [if_neg hba, if_neg hab] at h2
          have hc : a = b := char_toNat_inj a b (by omega)
          rw [hc, ih bs h1 h2]

/-- String-level asymmetry of the JavaScript order. -/
theorem jsLt_asymm (s t : String) (h : jsLt s t = true) : jsLt t s = false :=
  jsLtChars_asymm s.data t.data h

/-- String-level totality of the JavaScript order. -/
theorem jsLt_total (s t : String) (h1 : jsLt s t = false) (h2 : jsLt t s = false) :
    s = t := by
  rcases s with ⟨sd⟩
  rcases t with ⟨td⟩
  exact congrArg String.mk (jsLtChars_total sd td h1 h2)

/-- The canonical pair key ignores the order of its two blocks. -/
theorem pairKey_comm (a b : CodeBlock) : pairKey a b = pairKey b a := by
  rw [pairKey, pairKey]
  by_cases h : jsLt (blockKeyStr a) (blockKeyStr b)
  · rw [if_pos h, if_neg (by rw [jsLt_asymm _ _ h]; exact Bool.false_ne_true)]
  · by_cases h2 : jsLt (blockKeyStr b) (blockKeyStr a)
    · rw [if_neg h, if_pos h2]
    · have heq : blockKeyStr a = blockKeyStr b :=
        jsLt_total _ _ (Bool.of_not_eq_true h) (Bool.of_not_eq_true h2)
      rw [if_neg h, if_neg h2, heq]

/-- Equal unordered pairs have equal pair keys. -/
theorem sameUnordered_pairKey (p q : CodeBlock × CodeBlock)
    (h : sameUnordered p q) : pairKey p.1 p.2 = pairKey q.1 q.2 := by
  rcases h with ⟨h1, h2⟩ | ⟨h1, h2⟩
  · rw [h1, h2]
  · rw [h1, h2, pairKey_comm]

/-- Splitting at a separator absent from both prefixes is unambiguous. -/
theorem append_bar_inj (s1 : List Char) : ∀ (s2 t1 t2 : List Char),
    '|' ∉ s1 → '|' ∉ s2 →
    s1 ++ '|' :: t1 = s2 ++ '|' :: t2 → s1 = s2 ∧ t1 = t2 := by
  induction s1 with
  | nil =>
    intro s2 t1 t2 _ h2 heq
    rcases s2 with _ | ⟨b, bs⟩
    · rw [List.nil_append, List.nil_append] at heq
      exact ⟨rfl, List.cons_injective heq⟩
    · rw [List.nil_append, List.cons_append] at heq
      rcases List.cons.inj heq with ⟨hb, _⟩
      exact absurd (hb ▸ List.mem_cons_self b bs) h2
  | cons a as ih =>
    intro s2 t1 t2 h1 h2 heq
    rcases s2 with _ | ⟨b, bs⟩
    · rw [List.cons_append, List.nil_append] at heq
      rcases List.cons.inj heq with ⟨hb, _⟩
      exact absurd (hb ▸ List.mem_cons_self a as) h1
    · rw [List.cons_append, List.cons_append] at heq
      rcases List.cons.inj heq with ⟨hb, htail⟩
      rcases ih bs t1 t2 (fun hm => h1 (List.mem_cons_of_mem _ hm))
        (fun hm => h2 (List.mem_cons_of_mem _ hm)) htail with ⟨hA, hB⟩
      exact ⟨by rw [hb, hA], hB⟩

/-- String-level unambiguity of the `|`-joined pair key. -/
theorem barJoin_inj (u1 v1 u2 v2 : String) (h1 : '|' ∉ u1.data)
    (h2 : '|' ∉ u2.data) (heq : u1 ++ "|" ++ v1 = u2 ++ "|" ++ v2) :
    u1 = u2 ∧ v1 = v2 := by
  have hd := congrArg String.data heq
  rw [String.data_append, String.data_append, String.data_append,
    String.data_append] at hd
  have hd2 : u1.data ++ '|' :: v1.data = u2.data ++ '|' :: v2.data := by
    simpa using hd
  rcases append_bar_inj u1.data u2.data v1.data v2.data h1 h2 hd2 with ⟨hA, hB⟩
  rcases u1 with ⟨d1⟩
  rcases u2 with ⟨d2⟩
  rcases v1 with ⟨e1⟩
  rcases v2 with ⟨e2⟩
  exact ⟨congrArg String.mk hA, congrArg String.mk hB⟩

/-- Equal pair keys force equal block-key pairs, in order or swapped. -/
theorem pairKey_inj_keys (a b c d : CodeBlock)
    (ha : '|' ∉ (blockKeyStr a).data) (hb : '|' ∉ (blockKeyStr b).data)
    (hc : '|' ∉ (blockKeyStr c).data) (hd : '|' ∉ (blockKeyStr d).data)
    (heq : pairKey a b = pairKey c d) :
    (blockKeyStr a = blockKeyStr c ∧ blockKeyStr b = blockKeyStr d) ∨
    (blockKeyStr a = blockKeyStr d ∧ blockKeyStr b = blockKeyStr c) := by
  rw [pairKey, pairKey] at heq
  by_cases h1 : jsLt (blockKeyStr a) (blockKeyStr b) <;>
    by_cases h2 : jsLt (blockKeyStr c) (blockKeyStr d)
  · rw [if_pos h1, if_pos h2] at heq
    exact Or.inl (barJoin_inj _ _ _ _ ha hc heq)
  · rw [if_pos h1, if_neg h2] at heq
    exact Or.inr (barJoin_inj _ _ _ _ ha hd heq)
  · rw [if_neg h1, if_pos h2] at heq
    rcases barJoin_inj _ _ _ _ hb hc heq with ⟨hA, hB⟩
    exact Or.inr ⟨hB, hA⟩
  · rw [if_neg h1, if_neg h2] at heq
    rcases barJoin_inj _ _ _ _ hb hd heq with ⟨hA, hB⟩
    exact Or.inl ⟨hB, hA⟩

/-- With pairwise-distinct bar-free block keys, equal pair keys force the
same unordered pair of blocks. -/
theorem pairKey_inj_blocks (blocks : List CodeBlock)
    (hkeys : (blocks.map blockKeyStr).Nodup)
    (hbar : ∀ b ∈ blocks, '|' ∉ (blockKeyStr b).data)
    (a b c d : CodeBlock) (hma : a ∈ blocks) (hmb : b ∈ blocks)
    (hmc : c ∈ blocks) (hmd : d ∈ blocks)
    (heq : pairKey a b = pairKey c d) : sameUnordered (a, b) (c, d) := by
  have hinj := List.inj_on_of_nodup_map hkeys
  rcases pairKey_inj_keys a b c d (hbar a hma) (hbar b hmb) (hbar c hmc)
    (hbar d hmd) heq with ⟨hA, hB⟩ | ⟨hA, hB⟩
  · exact Or.inl ⟨hinj hma hmc hA, hinj hmb hmd hB⟩
  · exact Or.inr ⟨hinj hma hmd hA, hinj hmb hmc hB⟩

/-- A nested index loop over `n` items visits `n(n-1)/2` pairs (stated
doubled to avoid division). -/
theorem pairsOrdered_length {α : Type} (l : List α) :
    (pairsOrdered l).length * 2 = l.length * (l.length - 1) := by
  induction l with
  | nil => rfl
  | cons x xs ih =>
    rw [pairsOrdered, List.length_append, List.length_map, List.length_cons]
    have hsq : (xs.length + 1) * xs.length
        = xs.length * (xs.length - 1) + 2 * xs.length := by
      rcases hn : xs.length with _ | m
      · rfl
      · have hm : m + 1 - 1 = m := rfl
        rw [hm]
        ring
    have hgoal : xs.length + 1 - 1 = xs.length := by omega
    rw [hgoal]
    omega

/-- Over a duplicate-free list, ordered pairs have distinct components. -/
theorem pairsOrdered_components_ne {α : Type} (l : List α) (hl : l.Nodup)
    (p : α × α) (hp : p ∈ pairsOrdered l) : p.1 ≠ p.2 := by
  induction l with
  | nil => cases hp
  | cons x xs ih =>
    rw [pairsOrdered] at hp
    rcases List.mem_append.mp hp with h | h
    · rcases List.mem_map.mp h with ⟨y, hy, rfl⟩
      intro hxy
      have hx : x ∉ xs := (List.nodup_cons.mp hl).1
      apply hx
      have hyx : x = y := hxy
      rw [hyx]
      exact hy
    · exact ih (List.nodup_cons.mp hl).2 h

/-- Over a duplicate-free list, the visited pairs are pairwise distinct
as unordered pairs. -/
theorem pairsOrdered_pairwise_distinct (l : List CodeBlock) (hl : l.Nodup) :
    List.Pairwise (fun p q => ¬ sameUnordered p q) (pairsOrdered l) := by
  induction l with
  | nil => exact List.Pairwise.nil
  | cons x xs ih =>
    rw [pairsOrdered]
    rcases List.nodup_cons.mp hl with ⟨hx, hxs⟩
    apply List.pairwise_append.mpr
    refine ⟨?_, ih hxs, ?_⟩
    · rw [List.pairwise_map]
      have hpw : List.Pairwise Ne xs := hxs
      apply List.Pairwise.imp_of_mem ?_ hpw
      intro a b hma hmb hab hsame
      rcases hsame with ⟨_, h2⟩ | ⟨h1, _⟩
      · exact hab h2
      · apply hx
        have hxb : x = b := h1
        rw [hxb]
        exact hmb
    · intro p hp q hq hsame
      rcases List.mem_map.mp hp with ⟨y, hy, rfl⟩
      rcases pairsOrdered_mem _ _ hq with ⟨hq1, hq2⟩
      rcases hsame with ⟨h1, _⟩ | ⟨h1, _⟩
      · apply hx
        have hxq : x = q.1 := h1
        rw [hxq]
        exact hq1
      · apply hx
        have hxq : x = q.2 := h1
        rw [hxq]
        exact hq2
/-- Any two distinct members appear as a visited pair in one order. -/
theorem pairsOrdered_complete {α : Type} (l : List α) (a b : α)
    (ha : a ∈ l) (hb : b ∈ l) (hab : a ≠ b) :
    (a, b) ∈ pairsOrdered l ∨ (b, a) ∈ pairsOrdered l := by
  induction l with
  | nil => cases ha
  | cons x xs ih =>
    rw [pairsOrdered]
    rcases List.mem_cons.mp ha with rfl | ha2
    · have hbxs : b ∈ xs := by
        rcases List.mem_cons.mp hb with rfl | h
        · exact absurd rfl hab
        · exact h
      exact Or.inl (List.mem_append.mpr (Or.inl
        (List.mem_map.mpr ⟨b, hbxs, rfl⟩)))
    · rcases List.mem_cons.mp hb with rfl | hb2
      · exact Or.inr (List.mem_append.mpr (Or.inl
          (List.mem_map.mpr ⟨a, ha2, rfl⟩)))
      · rcases ih ha2 hb2 with h | h
        · exact Or.inl (List.mem_append.mpr (Or.inr h))
        · exact Or.inr (List.mem_append.mpr (Or.inr h))

/-- One Map insertion preserves the bucket invariant: keys stay distinct,
each bucket is the hash-filter of the processed blocks, and keys
correspond to processed hashes. -/
theorem insertBlock_strong (m : List (Int × List CodeBlock))
    (proc : List CodeBlock) (x : CodeBlock)
    (h1 : (m.map Prod.fst).Nodup)
    (h2 : ∀ e ∈ m, e.2 = proc.filter (fun b => b.hash == e.1))
    (h3 : ∀ h : Int, (∃ e ∈ m, e.1 = h) ↔ ∃ b ∈ proc, b.hash = h) :
    ((insertBlock m x).map Prod.fst).Nodup ∧
    (∀ e ∈ insertBlock m x, e.2 = (proc ++ [x]).filter (fun b => b.hash == e.1)) ∧
    (∀ h : Int, (∃ e ∈ insertBlock m x, e.1 = h) ↔ ∃ b ∈ proc ++ [x], b.hash = h) := by
  rw [insertBlock]
  by_cases hany : m.any (fun e => e.1 == x.hash)
  · rw [if_pos hany]
    have hkeys : (m.map (fun e =>
        if e.1 == x.hash then (e.1, e.2 ++ [x]) else e)).map Prod.fst
        = m.map Prod.fst := by
      rw [List.map_map]
      apply List.map_congr_left
      intro e _
      by_cases hx : e.1 == x.hash
      · rw [Function.comp_apply, if_pos hx]
      · rw [Function.comp_apply, if_neg hx]
    refine ⟨by rw [hkeys]; exact h1, ?_, ?_⟩
    · intro e' he'
      rcases List.mem_map.mp he' with ⟨e, he, rfl⟩
      by_cases hx : e.1 == x.hash
      · rw [if_pos hx]
        rw [List.filter_append]
        have hxe : (x.hash == (e.1, e.2 ++ [x]).1) = true := by
          simp only []
          have heq : e.1 = x.hash := beq_iff_eq.mp hx
          rw [heq]
          exact beq_self_eq_true _
        have hfx : [x].filter (fun b => b.hash == (e.1, e.2 ++ [x]).1) = [x] := by
          rw [List.filter_cons]
          rw [hxe]
          rfl
        rw [hfx]
        have := h2 e he
        simp only []
        rw [this]
      · rw [if_neg hx]
        rw [List.filter_append]
        have hfx : [x].filter (fun b => b.hash == e.1) = [] := by
          rw [List.filter_cons]
          have hne : (x.hash == e.1) = false := by
            apply beq_eq_false_iff_ne.mpr
            intro hcontra
            exact hx (beq_iff_eq.mpr hcontra.symm)
          rw [hne]
          rfl
        rw [hfx, List.append_nil]
        exact h2 e he
    · intro h
      constructor
      · intro ⟨e', he', hkey⟩
        rcases List.mem_map.mp he' with ⟨e, he, rfl⟩
        have hfst : (if e.1 == x.hash then (e.1, e.2 ++ [x]) else e).1 = e.1 := by
          by_cases hx : e.1 == x.hash
          · rw [if_pos hx]
          · rw [if_neg hx]
        rw [hfst] at hkey
        rcases (h3 h).mp ⟨e, he, hkey⟩ with ⟨b, hb, hbh⟩
        exact ⟨b, List.mem_append.mpr (Or.inl hb), hbh⟩
      · intro ⟨b, hb, hbh⟩
        rcases List.mem_append.mp hb with hb2 | hb2
        · rcases (h3 h).mpr ⟨b, hb2, hbh⟩ with ⟨e, he, hkey⟩
          refine ⟨if e.1 == x.hash then (e.1, e.2 ++ [x]) else e,
            List.mem_map.mpr ⟨e, he, rfl⟩, ?_⟩
          by_cases hx : e.1 == x.hash
          · rw [if_pos hx]
            exact hkey
          · rw [if_neg hx]
            exact hkey
        · rcases List.mem_singleton.mp hb2 with rfl
          rcases List.any_eq_true.mp hany with ⟨e, he, hx⟩
          refine ⟨if e.1 == b.hash then (e.1, e.2 ++ [b]) else e,
            List.mem_map.mpr ⟨e, he, rfl⟩, ?_⟩
          rw [if_pos hx]
          simp only []
          rw [beq_iff_eq.mp hx, hbh]
  · rw [if_neg hany]
    have hnokey : ∀ e ∈ m, e.1 ≠ x.hash := by
      intro e he hcontra
      exact hany (List.any_eq_true.mpr ⟨e, he, beq_iff_eq.mpr hcontra⟩)
    have hnoproc : ∀ b ∈ proc, b.hash ≠ x.hash := by
      intro b hb hcontra
      rcases (h3 x.hash).mpr ⟨b, hb, hcontra⟩ with ⟨e, he, hkey⟩
      exact hnokey e he hkey
    refine ⟨?_, ?_, ?_⟩
    · rw [List.map_append]
      apply List.Nodup.append h1 (by simp)
      intro k hk1 hk2
      rcases List.mem_map.mp hk1 with ⟨e, he, rfl⟩
      have hx : e.1 = x.hash := by simpa using hk2
      exact hnokey e he hx
    · intro e he
      rcases List.mem_append.mp he with he2 | he2
      · rw [List.filter_append]
        have hfx : [x].filter (fun b => b.hash == e.1) = [] := by
          rw [List.filter_cons]
          have hne : (x.hash == e.1) = false :=
            beq_eq_false_iff_ne.mpr (fun hc => hnokey e he2 hc.symm)
          rw [hne]
          rfl
        rw [hfx, List.append_nil]
        exact h2 e he2
      · rcases List.mem_singleton.mp he2 with rfl
        rw [List.filter_append]
        have hfp : proc.filter (fun b => b.hash == (x.hash, [x]).1) = [] := by
          apply List.filter_eq_nil_iff.mpr
          intro b hb hc
          exact hnoproc b hb (beq_iff_eq.mp hc)
        rw [hfp, List.nil_append, List.filter_cons]
        simp
    · intro h
      constructor
      · intro ⟨e, he, hkey⟩
        rcases List.mem_append.mp he with he2 | he2
        · rcases (h3 h).mp ⟨e, he2, hkey⟩ with ⟨b, hb, hbh⟩
          exact ⟨b, List.mem_append.mpr (Or.inl hb), hbh⟩
        · rcases List.mem_singleton.mp he2 with rfl
          exact ⟨x, List.mem_append.mpr (Or.inr (List.mem_singleton.mpr rfl)), hkey⟩
      · intro ⟨b, hb, hbh⟩
        rcases List.mem_append.mp hb with hb2 | hb2
        · rcases (h3 h).mpr ⟨b, hb2, hbh⟩ with ⟨e, he, hkey⟩
          exact ⟨e, List.mem_append.mpr (Or.inl he), hkey⟩
        · rcases List.mem_singleton.mp hb2 with rfl
          exact ⟨(b.hash, [b]), List.mem_append.mpr
            (Or.inr (List.mem_singleton.mpr rfl)), hbh⟩

/-- The hash map has pairwise-distinct keys and each bucket is exactly
the in-order filter of the blocks with that hash. -/
theorem buildHashMap_strong (blocks : List CodeBlock) :
    ((buildHashMap blocks).map Prod.fst).Nodup ∧
    ∀ e ∈ buildHashMap blocks, e.2 = blocks.filter (fun b => b.hash == e.1) := by
  suffices h : ∀ (sub proc : List CodeBlock) (m : List (Int × List CodeBlock)),
      (m.map Prod.fst).Nodup →
      (∀ e ∈ m, e.2 = proc.filter (fun b => b.hash == e.1)) →
      (∀ hv : Int, (∃ e ∈ m, e.1 = hv) ↔ ∃ b ∈ proc, b.hash = hv) →
      ((sub.foldl insertBlock m).map Prod.fst).Nodup ∧
      (∀ e ∈ sub.foldl insertBlock m,
        e.2 = (proc ++ sub).filter (fun b => b.hash == e.1)) ∧
      (∀ hv : Int, (∃ e ∈ sub.foldl insertBlock m, e.1 = hv) ↔
        ∃ b ∈ proc ++ sub, b.hash = hv) by
    rcases h blocks [] [] (by simp) (by simp) (by simp) with ⟨a, b, _⟩
    exact ⟨a, by simpa using b⟩
  intro sub
  induction sub with
  | nil =>
    intro proc m hm1 hm2 hm3
    refine ⟨hm1, by simpa using hm2, by simpa using hm3⟩
  | cons x xs ih =>
    intro proc m hm1 hm2 hm3
    rw [List.foldl_cons]
    rcases insertBlock_strong m proc x hm1 hm2 hm3 with ⟨i1, i2, i3⟩
    rcases ih (proc ++ [x]) (insertBlock m x) i1 i2 i3 with ⟨a, b, c⟩
    refine ⟨a, ?_, ?_⟩
    · intro e he
      have hb := b e he
      rwa [List.append_assoc, List.singleton_append] at hb
    · intro hv
      rw [← List.singleton_append, ← List.append_assoc]
      exact c hv

/-- Lists shorter than two items yield no pairs. -/
theorem pairsOrdered_short {α : Type} (l : List α) (h : l.length < 2) :
    pairsOrdered l = [] := by
  rcases l with _ | ⟨x, _ | ⟨y, rest⟩⟩
  · rfl
  · rfl
  · rw [List.length_cons, List.length_cons] at h
    omega

/-- The bucket loop is the pair loop over the concatenated bucket pairs
(the skipped short buckets contribute no pairs). -/
theorem structuralPass_eq_foldl (buckets : List (Int × List CodeBlock)) :
    structuralPass buckets = (bucketPairs buckets).foldl structStep ([], []) := by
  rw [structuralPass, bucketPairs]
  suffices h : ∀ acc : List String × List (CodeBlock × CodeBlock),
      buckets.foldl (fun acc e =>
        if e.2.length < 2 then acc
        else (pairsOrdered e.2).foldl structStep acc) acc
      = ((buckets.map (fun e => pairsOrdered e.2)).flatten).foldl structStep acc from
    h ([], [])
  induction buckets with
  | nil => intro acc; rfl
  | cons e es ih =>
    intro acc
    rw [List.foldl_cons, List.map_cons, List.flatten_cons, List.foldl_append]
    by_cases hl : e.2.length < 2
    · rw [if_pos hl, pairsOrdered_short e.2 hl]
      exact ih acc
    · rw [if_neg hl]
      exact ih _

/-- When every key is fresh and the keys are distinct, the structural
loop reports every pair. -/
theorem foldl_structStep_fresh (ps : List (CodeBlock × CodeBlock)) :
    ∀ acc : List String × List (CodeBlock × CodeBlock),
    (∀ p ∈ ps, pairKey p.1 p.2 ∉ acc.1) →
    (ps.map (fun p => pairKey p.1 p.2)).Nodup →
    ps.foldl structStep acc =
      (acc.1 ++ ps.map (fun p => pairKey p.1 p.2), acc.2 ++ ps) := by
  induction ps with
  | nil =>
    intro acc _ _
    simp
  | cons p ps ih =>
    intro acc hfresh hnodup
    rw [List.foldl_cons, structStep,
      if_neg (hfresh p (List.mem_cons_self _ _))]
    rw [List.map_cons] at hnodup
    rcases List.nodup_cons.mp hnodup with ⟨hp, hps⟩
    rw [ih _ ?_ hps]
    · simp
    · intro q hq
      simp only [List.mem_append, List.mem_singleton]
      rintro (h | h)
      · exact hfresh q (List.mem_cons_of_mem _ hq) h
      · exact hp (h ▸ List.mem_map_of_mem _ hq)

/-- Components of a bucket pair are blocks carrying the bucket hash. -/
theorem bucketPairs_mem_blocks (blocks : List CodeBlock)
    (e : Int × List CodeBlock) (he : e ∈ buildHashMap blocks)
    (p : CodeBlock × CodeBlock) (hp : p ∈ pairsOrdered e.2) :
    p.1 ∈ blocks ∧ p.2 ∈ blocks ∧ p.1.hash = e.1 ∧ p.2.hash = e.1 := by
  rcases pairsOrdered_mem _ _ hp with ⟨h1, h2⟩
  rcases buildHashMap_mem blocks e he _ h1 with ⟨hb1, hh1⟩
  rcases buildHashMap_mem blocks e he _ h2 with ⟨hb2, hh2⟩
  exact ⟨hb1, hb2, hh1, hh2⟩

/-- With distinct bar-free block keys, all bucket pairs have pairwise
distinct pair keys. -/
theorem bucketPairs_keys_nodup (blocks : List CodeBlock)
    (hkeys : (blocks.map blockKeyStr).Nodup)
    (hbar : ∀ b ∈ blocks, '|' ∉ (blockKeyStr b).data) :
    ((bucketPairs (buildHashMap blocks)).map
      (fun p => pairKey p.1 p.2)).Nodup := by
  have hbn : blocks.Nodup := List.Nodup.of_map _ hkeys
  rcases buildHashMap_strong blocks with ⟨hmkeys, hfilter⟩
  rw [bucketPairs, List.map_flatten, List.map_map]
  rw [List.nodup_flatten]
  constructor
  · intro inner hinner
    rcases List.mem_map.mp hinner with ⟨e, he, rfl⟩
    have hbucket : e.2.Nodup := by
      rw [hfilter e he]
      exact List.Nodup.filter _ hbn
    have hpw := pairsOrdered_pairwise_distinct e.2 hbucket
    rw [Function.comp_apply]
    show (List.map (fun p => pairKey p.1 p.2) (pairsOrdered e.2)).Nodup
    have hpw2 : List.Pairwise
        (fun p q : CodeBlock × CodeBlock =>
          pairKey p.1 p.2 ≠ pairKey q.1 q.2) (pairsOrdered e.2) := by
      apply List.Pairwise.imp_of_mem ?_ hpw
      intro p q hpm hqm hnotsame hkey
      rcases bucketPairs_mem_blocks blocks e he p hpm with ⟨hp1, hp2, _, _⟩
      rcases bucketPairs_mem_blocks blocks e he q hqm with ⟨hq1, hq2, _, _⟩
      exact hnotsame (pairKey_inj_blocks blocks hkeys hbar _ _ _ _
        hp1 hp2 hq1 hq2 hkey)
    exact (List.pairwise_map).mpr hpw2
  · have hMpw : List.Pairwise (fun e e2 : Int × List CodeBlock => e.1 ≠ e2.1)
        (buildHashMap blocks) := (List.pairwise_map).mp hmkeys
    apply (List.pairwise_map).mpr
    apply List.Pairwise.imp_of_mem ?_ hMpw
    intro e e2 hem he2m hne
    intro k hk1 hk2
    rw [Function.comp_apply] at hk1 hk2
    rcases List.mem_map.mp hk1 with ⟨p, hp, rfl⟩
    rcases List.mem_map.mp hk2 with ⟨q, hq, hkeq⟩
    rcases bucketPairs_mem_blocks blocks e hem p hp with ⟨hp1, hp2, hh1, hh2⟩
    rcases bucketPairs_mem_blocks blocks e2 he2m q hq with ⟨hq1, hq2, hg1, hg2⟩
    have hsame := pairKey_inj_blocks blocks hkeys hbar _ _ _ _
      hp1 hp2 hq1 hq2 hkeq.symm
    rcases hsame with ⟨h1, _⟩ | ⟨h1, _⟩
    · exact hne (by rw [← hh1, h1, hg1])
    · exact hne (by rw [← hh1, h1, hg2])

/-- With distinct bar-free block keys the structural pass reports exactly
the concatenated bucket pairs. -/
theorem structuralPass_complete (blocks : List CodeBlock)
    (hkeys : (blocks.map blockKeyStr).Nodup)
    (hbar : ∀ b ∈ blocks, '|' ∉ (blockKeyStr b).data) :
    (structuralPass (buildHashMap blocks)).2 = bucketPairs (buildHashMap blocks) := by
  rw [structuralPass_eq_foldl,
    foldl_structStep_fresh _ ([], []) (by intro p _ h; cases h)
      (bucketPairs_keys_nodup blocks hkeys hbar)]
  simp

/-- The reported-key set of the structural loop tracks the reported
pairs and stays duplicate-free. -/
theorem foldl_structStep_keys (ps : List (CodeBlock × CodeBlock)) :
    ∀ acc : List String × List (CodeBlock × CodeBlock),
    acc.1 = acc.2.map (fun p => pairKey p.1 p.2) → acc.1.Nodup →
    (ps.foldl structStep acc).1 =
      (ps.foldl structStep acc).2.map (fun p => pairKey p.1 p.2) ∧
    (ps.foldl structStep acc).1.Nodup := by
  induction ps with
  | nil => intro acc h1 h2; exact ⟨h1, h2⟩
  | cons p ps ih =>
    intro acc h1 h2
    rw [List.foldl_cons, structStep]
    by_cases hk : pairKey p.1 p.2 ∈ acc.1
    · rw [if_pos hk]
      exact ih acc h1 h2
    · rw [if_neg hk]
      apply ih
      · rw [List.map_append, h1]
        rfl
      · simp only []
        apply List.Nodup.append h2 (by simp)
        intro k hk1 hk2
        rcases List.mem_singleton.mp hk2 with rfl
        exact hk hk1

/-- The reported-key set of the structural pass is its pairs' keys,
without duplicates. -/
theorem structuralPass_keys (buckets : List (Int × List CodeBlock)) :
    (structuralPass buckets).1 =
      (structuralPass buckets).2.map (fun p => pairKey p.1 p.2) ∧
    (structuralPass buckets).1.Nodup := by
  rw [structuralPass_eq_foldl]
  exact foldl_structStep_keys _ ([], []) rfl (by simp)

/-- The similar loop's key set tracks its pairs, stays duplicate-free,
and avoids the structural keys. -/
theorem foldl_similarStep_keys (s : ℚ) (rep : List String)
    (ps : List (CodeBlock × CodeBlock)) :
    ∀ acc : List String × List (CodeBlock × CodeBlock),
    acc.1 = acc.2.map (fun p => pairKey p.1 p.2) → acc.1.Nodup →
    (∀ k ∈ acc.1, k ∉ rep) →
    (ps.foldl (similarStep s rep) acc).1 =
      (ps.foldl (similarStep s rep) acc).2.map (fun p => pairKey p.1 p.2) ∧
    (ps.foldl (similarStep s rep) acc).1.Nodup ∧
    (∀ k ∈ (ps.foldl (similarStep s rep) acc).1, k ∉ rep) := by
  induction ps with
  | nil => intro acc h1 h2 h3; exact ⟨h1, h2, h3⟩
  | cons p ps ih =>
    intro acc h1 h2 h3
    rw [List.foldl_cons]
    simp only [similarStep]
    by_cases hk1 : pairKey p.1 p.2 ∈ rep
    · rw [if_pos hk1]
      exact ih acc h1 h2 h3
    · rw [if_neg hk1]
      by_cases hk2 : pairKey p.1 p.2 ∈ acc.1
      · rw [if_pos hk2]
        exact ih acc h1 h2 h3
      · rw [if_neg hk2]
        by_cases hk3 : p.1.filePath == p.2.filePath && p.1.startLine == p.2.startLine
        · rw [if_pos hk3]
          exact ih acc h1 h2 h3
        · rw [if_neg hk3]
          by_cases hk4 : s ≤ jaccardSimilarity p.1.tokens p.2.tokens
          · rw [if_pos hk4]
            apply ih
            · rw [List.map_append, h1]
              rfl
            · simp only []
              apply List.Nodup.append h2 (by simp)
              intro k hka hkb
              rcases List.mem_singleton.mp hkb with rfl
              exact hk2 hka
            · intro k hk
              rcases List.mem_append.mp hk with h | h
              · exact h3 k h
              · rcases List.mem_singleton.mp h with rfl
                exact hk1
          · rw [if_neg hk4]
            exact ih acc h1 h2 h3

/-- All reported pairs of one run — structural then similar — are
pairwise distinct as unordered pairs; in particular a structural pair is
never reported again as similar. -/
theorem reported_pairs_pairwise_distinct (context : AnalysisContext) :
    List.Pairwise (fun p q => ¬ sameUnordered p q)
      ((structuralPass (buildHashMap (allBlocksOf context))).2 ++
        similarPass (allBlocksOf context)
          (structuralPass (buildHashMap (allBlocksOf context))).1
          (similarityOf context)) := by
  rcases structuralPass_keys (buildHashMap (allBlocksOf context)) with ⟨hs1, hs2⟩
  rcases foldl_similarStep_keys (similarityOf context)
      (structuralPass (buildHashMap (allBlocksOf context))).1
      (pairsOrdered (allBlocksOf context)) ([], []) rfl (by simp)
      (by intro k h; cases h) with ⟨hm1, hm2, hm3⟩
  have hnodup : (((structuralPass (buildHashMap (allBlocksOf context))).2 ++
      similarPass (allBlocksOf context)
        (structuralPass (buildHashMap (allBlocksOf context))).1
        (similarityOf context)).map (fun p => pairKey p.1 p.2)).Nodup := by
    rw [List.map_append]
    apply List.Nodup.append
    · rw [← hs1]
      exact hs2
    · rw [similarPass, ← hm1]
      exact hm2
    · intro k hk1 hk2
      rw [← hs1] at hk1
      rw [similarPass, ← hm1] at hk2
      exact hm3 k hk2 hk1
  have hpw := (List.pairwise_map).mp hnodup
  apply List.Pairwise.imp ?_ hpw
  intro p q hne hsame
  exact hne (sameUnordered_pairKey p q hsame)

/-- C2 (amended): provided all extracted blocks have pairwise-distinct
`file:startLine` keys and no key contains `|`, the structural pass
reports exactly the ordered pairs of every bucket — `N(N-1)/2` pairs for
a bucket of `N` blocks, each unordered pair of a bucket in exactly one
orientation — every reported pair (structural or similar) appears at
most once overall, a structural pair is never also reported as similar,
and the findings are these pairs rendered in order. -/
theorem structural_bucket_pair_reporting (context : AnalysisContext)
    (hkeys : ((allBlocksOf context).map blockKeyStr).Nodup)
    (hbar : ∀ b ∈ allBlocksOf context, '|' ∉ (blockKeyStr b).data) :
    (structuralPass (buildHashMap (allBlocksOf context))).2
      = bucketPairs (buildHashMap (allBlocksOf context)) ∧
    (∀ e ∈ buildHashMap (allBlocksOf context), 2 ≤ e.2.length →
      (pairsOrdered e.2).length = e.2.length * (e.2.length - 1) / 2) ∧
    (∀ e ∈ buildHashMap (allBlocksOf context), ∀ a ∈ e.2, ∀ b ∈ e.2, a ≠ b →
      (a, b) ∈ (structuralPass (buildHashMap (allBlocksOf context))).2 ∨
      (b, a) ∈ (structuralPass (buildHashMap (allBlocksOf context))).2) ∧
    List.Pairwise (fun p q => ¬ sameUnordered p q)
      ((structuralPass (buildHashMap (allBlocksOf context))).2 ++
        similarPass (allBlocksOf context)
          (structuralPass (buildHashMap (allBlocksOf context))).1
          (similarityOf context)) ∧
    DuplicateDetector.analyze context =
      ((structuralPass (buildHashMap (allBlocksOf context))).2.map
        (fun p => structuralCloneFinding p.1 p.2)) ++
      ((similarPass (allBlocksOf context)
          (structuralPass (buildHashMap (allBlocksOf context))).1
          (similarityOf context)).map
        (fun p => similarBlockFinding p.1 p.2)) := by
  refine ⟨structuralPass_complete _ hkeys hbar, ?_, ?_,
    reported_pairs_pairwise_distinct context, rfl⟩
  · intro e _ _
    have hl := pairsOrdered_length e.2
    omega
  · intro e he a ha b hb hab
    rw [structuralPass_complete _ hkeys hbar]
    rcases pairsOrdered_complete e.2 a b ha hb hab with h | h
    · exact Or.inl (List.mem_flatten.mpr
        ⟨pairsOrdered e.2, List.mem_map_of_mem _ he, h⟩)
    · exact Or.inr (List.mem_flatten.mpr
        ⟨pairsOrdered e.2, List.mem_map_of_mem _ he, h⟩)

/-- Witness for C2 on a two-file clone context with distinct keys. -/
theorem structural_bucket_pair_reporting_witness :
    (structuralPass (buildHashMap (allBlocksOf ctxClone))).2
      = bucketPairs (buildHashMap (allBlocksOf ctxClone)) ∧
    DuplicateDetector.analyze ctxClone =
      ((structuralPass (buildHashMap (allBlocksOf ctxClone))).2.map
        (fun p => structuralCloneFinding p.1 p.2)) ++
      ((similarPass (allBlocksOf ctxClone)
          (structuralPass (buildHashMap (allBlocksOf ctxClone))).1
          (similarityOf ctxClone)).map
        (fun p => similarBlockFinding p.1 p.2)) :=
  ⟨(structural_bucket_pair_reporting ctxClone (by decide) (by decide)).1,
   (structural_bucket_pair_reporting ctxClone (by decide) (by decide)).2.2.2.2⟩

/-- Counterexample to C2 as stated: duplicating a file whose
`function_declaration` starts on the same line as its nested
`if_statement` yields two buckets of two blocks but only one
structural-clone finding — the second bucket's pair key repeats the
first's, so its pair is skipped. -/
theorem structural_bucket_counts_counterexample :
    ((buildHashMap (allBlocksOf ctxNested)).map (fun e => e.2.length)) = [2, 2] ∧
    (structuralPass (buildHashMap (allBlocksOf ctxNested))).2.length = 1 ∧
    ¬ (∀ e ∈ buildHashMap (allBlocksOf ctxNested), 2 ≤ e.2.length →
        ((structuralPass (buildHashMap (allBlocksOf ctxNested))).2.filter
          (fun p => p.1.hash == e.1)).length
          = e.2.length * (e.2.length - 1) / 2) :=
  ⟨by decide, by decide, by decide⟩
